import Mathlib

/-!
# Verification of sshget's transfer scheduler, agent protocol and pool

Shallow embedding of the parts of `sshget` (SSHGet scheduler in
`src/unnamed/part_004`, `src/lib/AgentPool.js`, the Python agent embedded in
`AgentPool.js`, and the agent-based `Downloader`) that the specification's
claims are about.  JavaScript numbers holding byte counts and offsets are
modelled as exact integers (`Nat`/`Int`); where JS arithmetic can go negative
(`size - 1`, `(i+1)*chunkSize - 1`) the embedding uses `Int` so the
`rangeStart <= rangeEnd` guard behaves exactly as in the source.
-/

namespace SSHGet

/-- A `Range` job as pushed by `downloadFiles` (part_004, lines 256-265):
`{type:"range", rangeStart, rangeEnd, chunkIndex, totalChunks}`.  `rangeStart`
and `rangeEnd` are `Int` because the JS expressions `(i+1)*chunkSize - 1` and
`file.size - 1` can be negative. -/
structure RangeJob where
  rangeStart : Int
  rangeEnd : Int
  chunkIndex : Nat
  totalChunks : Nat
deriving Repr, DecidableEq

/-- One iteration of the planning loop `for (let i = 0; i < this.tunnelCount; i++)`
(part_004, lines 251-268): compute `rangeStart = i*chunkSize`,
`rangeEnd = min((i+1)*chunkSize - 1, file.size - 1)`, and push a job with
`chunkIndex = actualChunkCount` (the number of jobs already retained, which in
the accumulator is `acc.length`) exactly when `rangeStart <= rangeEnd`.
`totalChunks` is pushed as `0` and set after the loop, as in the source. -/
def chunkStep (size chunkSize : Int) (acc : List RangeJob) (i : Nat) : List RangeJob :=
  let rangeStart : Int := (i : Int) * chunkSize
  let rangeEnd : Int := min (((i : Int) + 1) * chunkSize - 1) (size - 1)
  if rangeStart ≤ rangeEnd then
    acc ++ [{ rangeStart := rangeStart, rangeEnd := rangeEnd,
              chunkIndex := acc.length, totalChunks := 0 }]
  else
    acc

/-- The whole planning loop over `i = 0 .. tunnelCount-1` (part_004, lines 251-268). -/
def chunkJobsRaw (size chunkSize : Int) (tunnelCount : Nat) : List RangeJob :=
  (List.range tunnelCount).foldl (chunkStep size chunkSize) []

/-- `Math.ceil(file.size / this.tunnelCount)` (part_004, line 249) for natural
`size` and positive `tunnelCount`: ceiling division. -/
def jsCeilDiv (size tunnelCount : Nat) : Nat :=
  (size + tunnelCount - 1) / tunnelCount

/-- The range-job plan for one file of size `size` with `tunnelCount` tunnels
(part_004, lines 248-274): run the loop with
`chunkSize = ceil(size / tunnelCount)`, then set `totalChunks` on every
retained job to `actualChunkCount` (the number of retained jobs). -/
def planRangeJobs (size tunnelCount : Nat) : List RangeJob :=
  (chunkJobsRaw (size : Int) ((jsCeilDiv size tunnelCount) : Int) tunnelCount).map
    (fun j => { j with totalChunks :=
      (chunkJobsRaw (size : Int) ((jsCeilDiv size tunnelCount) : Int) tunnelCount).length })

/-- The number of chunks actually retained: `⌈size / chunkSize⌉`. -/
def numChunks (size chunkSize : Nat) : Nat :=
  (size + chunkSize - 1) / chunkSize

example : planRangeJobs 5 2 =
    [⟨0, 2, 0, 2⟩, ⟨3, 4, 1, 2⟩] := by decide

example : planRangeJobs 10 8 =
    [⟨0, 1, 0, 5⟩, ⟨2, 3, 1, 5⟩, ⟨4, 5, 2, 5⟩, ⟨6, 7, 3, 5⟩, ⟨8, 9, 4, 5⟩] := by
  decide

example : numChunks 10 2 = 5 := by decide

/-- The job the planning loop retains for index `i`, in closed form. -/
def mkChunk (size cs total i : Nat) : RangeJob :=
  { rangeStart := (i : Int) * cs
    rangeEnd := min (((i : Int) + 1) * cs - 1) ((size : Int) - 1)
    chunkIndex := i
    totalChunks := total }

theorem jsCeilDiv_pos {size tc : Nat} (hs : 1 ≤ size) (htc : 1 ≤ tc) :
    1 ≤ jsCeilDiv size tc := by
  unfold jsCeilDiv
  rw [Nat.le_div_iff_mul_le htc, one_mul]
  omega

theorem kept_iff (size : Nat) {cs : Nat} (hcs : 1 ≤ cs) (i : Nat) :
    i * cs < size ↔ i < numChunks size cs := by
  unfold numChunks
  have h : i + 1 ≤ (size + cs - 1) / cs ↔ (i + 1) * cs ≤ size + cs - 1 :=
    Nat.le_div_iff_mul_le (by omega)
  have hexp : (i + 1) * cs = i * cs + cs := by ring
  rw [hexp] at h
  constructor
  · intro hlt
    refine Nat.lt_of_succ_le (h.mpr ?_)
    generalize i * cs = A at *
    omega
  · intro hlt
    have h2 := h.mp (Nat.succ_le_of_lt hlt)
    generalize i * cs = A at *
    omega

theorem numChunks_pos {size cs : Nat} (hs : 1 ≤ size) (hcs : 1 ≤ cs) :
    1 ≤ numChunks size cs := by
  have := (kept_iff size hcs 0).mp (by simpa using hs)
  omega

theorem size_le_mul_jsCeilDiv {size tc : Nat} (htc : 1 ≤ tc) :
    size ≤ tc * jsCeilDiv size tc := by
  unfold jsCeilDiv
  have hdm := Nat.div_add_mod (size + tc - 1) tc
  have hml : (size + tc - 1) % tc < tc := Nat.mod_lt _ (by omega)
  generalize (size + tc - 1) / tc = q at *
  generalize (size + tc - 1) % tc = r at *
  generalize tc * q = A at *
  omega

theorem numChunks_le {size tc : Nat} (htc : 1 ≤ tc) :
    numChunks size (jsCeilDiv size tc) ≤ tc := by
  set cs := jsCeilDiv size tc with hcs
  rcases Nat.eq_zero_or_pos cs with h0 | hpos
  · unfold numChunks
    rw [h0]
    simp
  · have hsz : size ≤ tc * cs := size_le_mul_jsCeilDiv htc
    unfold numChunks
    rw [Nat.div_le_iff_le_mul_add_pred hpos]
    have : cs * tc = tc * cs := Nat.mul_comm cs tc
    rw [this]
    generalize tc * cs = A at *
    omega

theorem chunkGuard_iff {size cs : Nat} (hcs : 1 ≤ cs) (i : Nat) :
    ((i : Int) * cs ≤ min (((i : Int) + 1) * cs - 1) ((size : Int) - 1)) ↔
      i * cs < size := by
  have hcast : ((i * cs : Nat) : Int) = (i : Int) * cs := by push_cast; ring
  rw [le_min_iff]
  constructor
  · rintro ⟨_, h2⟩
    have hx : (i : Int) * cs < (size : Int) := by linarith
    rw [← hcast] at hx
    exact_mod_cast hx
  · intro h
    have h1 : (1 : Int) ≤ (cs : Int) := by exact_mod_cast hcs
    have hexp : ((i : Int) + 1) * cs = (i : Int) * cs + cs := by ring
    refine ⟨by rw [hexp]; linarith, ?_⟩
    have hx : ((i * cs : Nat) : Int) < ((size : Nat) : Int) := by exact_mod_cast h
    rw [hcast] at hx
    linarith

theorem chunkJobsRaw_closed (size cs : Nat) (hcs : 1 ≤ cs) (tc : Nat) :
    chunkJobsRaw (size : Int) (cs : Int) tc
      = (List.range (min tc (numChunks size cs))).map (mkChunk size cs 0) := by
  induction tc with
  | zero => simp [chunkJobsRaw]
  | succ n ih =>
    rw [chunkJobsRaw] at ih ⊢
    rw [List.range_succ, List.foldl_append, List.foldl_cons, List.foldl_nil, ih]
    simp only [chunkStep]
    by_cases hk : n < numChunks size cs
    · rw [if_pos ((chunkGuard_iff hcs n).mpr ((kept_iff size hcs n).mpr hk))]
      have hmin1 : min n (numChunks size cs) = n := min_eq_left (Nat.le_of_lt hk)
      have hmin2 : min (n + 1) (numChunks size cs) = n + 1 := min_eq_left hk
      rw [hmin1, hmin2, List.range_succ, List.map_append]
      simp [mkChunk]
    · rw [if_neg (fun hg => hk ((kept_iff size hcs n).mp ((chunkGuard_iff hcs n).mp hg)))]
      have hK : numChunks size cs ≤ n := Nat.le_of_not_lt hk
      rw [min_eq_right hK, min_eq_right (Nat.le_succ_of_le hK)]

theorem planRangeJobs_closed (size tc : Nat) (hs : 1 ≤ size) (htc : 1 ≤ tc) :
    planRangeJobs size tc
      = (List.range (numChunks size (jsCeilDiv size tc))).map
          (mkChunk size (jsCeilDiv size tc)
            (numChunks size (jsCeilDiv size tc))) := by
  unfold planRangeJobs
  rw [chunkJobsRaw_closed size _ (jsCeilDiv_pos hs htc) tc,
      min_eq_right (numChunks_le htc)]
  rw [List.map_map, List.length_map, List.length_range]
  exact List.map_congr_left (fun i _ => by simp [Function.comp, mkChunk])

theorem planRangeJobs_length (size tc : Nat) (hs : 1 ≤ size) (htc : 1 ≤ tc) :
    (planRangeJobs size tc).length = numChunks size (jsCeilDiv size tc) := by
  rw [planRangeJobs_closed size tc hs htc, List.length_map, List.length_range]

theorem planRangeJobs_get (size tc : Nat) (hs : 1 ≤ size) (htc : 1 ≤ tc)
    (i : Nat) (h : i < (planRangeJobs size tc).length) :
    (planRangeJobs size tc).get ⟨i, h⟩
      = mkChunk size (jsCeilDiv size tc) (numChunks size (jsCeilDiv size tc)) i := by
  have h' : i < numChunks size (jsCeilDiv size tc) := by
    rw [← planRangeJobs_length size tc hs htc]; exact h
  simp [List.get_eq_getElem, planRangeJobs_closed size tc hs htc,
    List.getElem_map, List.getElem_range]

theorem chunk_index_unique {cs : Int} (hcs : 1 ≤ cs) {i j : Nat} {x : Int}
    (h1 : (i : Int) * cs ≤ x) (h2 : x < ((i : Int) + 1) * cs)
    (h3 : (j : Int) * cs ≤ x) (h4 : x < ((j : Int) + 1) * cs) : i = j := by
  by_contra hne
  rcases Nat.lt_or_ge i j with h | h
  · have hij : ((i : Int) + 1) ≤ (j : Int) := by exact_mod_cast h
    have hm : ((i : Int) + 1) * cs ≤ (j : Int) * cs :=
      mul_le_mul_of_nonneg_right hij (by linarith)
    linarith
  · have hji : j < i := Nat.lt_of_le_of_ne h (fun e => hne e.symm)
    have hij : ((j : Int) + 1) ≤ (i : Int) := by exact_mod_cast hji
    have hm : ((j : Int) + 1) * cs ≤ (i : Int) * cs :=
      mul_le_mul_of_nonneg_right hij (by linarith)
    linarith

theorem exists_chunk_for (size : Nat) {cs : Nat} (hcs : 1 ≤ cs) (x : Int)
    (hx0 : 0 ≤ x) (hx1 : x ≤ (size : Int) - 1) :
    ∃ i : Nat, i < numChunks size cs ∧
      (i : Int) * cs ≤ x ∧ x ≤ min (((i : Int) + 1) * cs - 1) ((size : Int) - 1) := by
  have hcsZ : (1 : Int) ≤ (cs : Int) := by exact_mod_cast hcs
  have hq0 : 0 ≤ x / (cs : Int) := Int.ediv_nonneg hx0 (by linarith)
  have hdm := Int.ediv_add_emod x (cs : Int)
  have hr0 : 0 ≤ x % (cs : Int) := Int.emod_nonneg x (by linarith)
  have hr1 : x % (cs : Int) < cs := Int.emod_lt_of_pos x (by linarith)
  refine ⟨(x / (cs : Int)).toNat, ?_, ?_, ?_⟩
  all_goals
    have hqq : (((x / (cs : Int)).toNat : Nat) : Int) = x / (cs : Int) :=
      Int.toNat_of_nonneg hq0
  · rw [← kept_iff size hcs]
    have hlow : (cs : Int) * (x / (cs : Int)) ≤ x := by linarith
    have hxlt : ((((x / (cs : Int)).toNat * cs : Nat)) : Int) < (size : Int) := by
      push_cast
      rw [hqq]
      nlinarith [hlow]
    exact_mod_cast hxlt
  · rw [hqq]
    nlinarith [hdm, hr0]
  · refine le_min ?_ hx1
    rw [hqq]
    nlinarith [hdm, hr1]

/-- **C1.** For every file planned for download with
`file.size ≥ parallelThreshold` and `tunnelCount > 1`, planning
(`downloadFiles`, part_004 lines 248-274) emits Range jobs computed with
`chunkSize = ⌈file.size / tunnelCount⌉` whose `[rangeStart, rangeEnd]`
intervals are non-degenerate, contiguous, non-overlapping and exactly cover
`[0, file.size - 1]` (chunks with `start > end` having been dropped);
`chunkIndex` is dense `0..totalChunks-1` in order and every emitted Range job
carries `totalChunks` equal to the number of retained chunks. -/
theorem c1_range_plan_partition (parallelThreshold size tunnelCount : Nat)
    (hthr : 1 ≤ parallelThreshold) (hsize : parallelThreshold ≤ size)
    (htc : 1 < tunnelCount) :
    ∀ jobs : List RangeJob, jobs = planRangeJobs size tunnelCount →
      (∀ i (h : i < jobs.length),
          (jobs.get ⟨i, h⟩).chunkIndex = i ∧
          (jobs.get ⟨i, h⟩).totalChunks = jobs.length ∧
          (jobs.get ⟨i, h⟩).rangeStart ≤ (jobs.get ⟨i, h⟩).rangeEnd) ∧
      (∀ i (h1 : i + 1 < jobs.length) (h0 : i < jobs.length),
          (jobs.get ⟨i + 1, h1⟩).rangeStart = (jobs.get ⟨i, h0⟩).rangeEnd + 1) ∧
      (∀ x : Int,
          (0 ≤ x ∧ x ≤ (size : Int) - 1) ↔
            ∃ i, ∃ (h : i < jobs.length),
              (jobs.get ⟨i, h⟩).rangeStart ≤ x ∧ x ≤ (jobs.get ⟨i, h⟩).rangeEnd) ∧
      (∀ i j (hi : i < jobs.length) (hj : j < jobs.length) (x : Int),
          (jobs.get ⟨i, hi⟩).rangeStart ≤ x → x ≤ (jobs.get ⟨i, hi⟩).rangeEnd →
          (jobs.get ⟨j, hj⟩).rangeStart ≤ x → x ≤ (jobs.get ⟨j, hj⟩).rangeEnd →
          i = j) := by
  intro jobs hjobs
  subst hjobs
  have hs : 1 ≤ size := le_trans hthr hsize
  have htc1 : 1 ≤ tunnelCount := le_of_lt htc
  have hcs : 1 ≤ jsCeilDiv size tunnelCount := jsCeilDiv_pos hs htc1
  have hcsZ : (1 : Int) ≤ (jsCeilDiv size tunnelCount : Int) := by exact_mod_cast hcs
  have hlen := planRangeJobs_length size tunnelCount hs htc1
  have hget := planRangeJobs_get size tunnelCount hs htc1
  refine ⟨?_, ?_, ?_, ?_⟩
  · intro i h
    rw [hget i h]
    have hiK : i < numChunks size (jsCeilDiv size tunnelCount) := by
      rw [← hlen]; exact h
    refine ⟨rfl, by rw [hlen]; rfl, ?_⟩
    show ((i : Int) * (jsCeilDiv size tunnelCount) ≤ _)
    exact (chunkGuard_iff hcs i).mpr ((kept_iff size hcs i).mpr hiK)
  · intro i h1 h0
    rw [hget (i + 1) h1, hget i h0]
    have hiK : i + 1 < numChunks size (jsCeilDiv size tunnelCount) := by
      rw [← hlen]; exact h1
    have hkept : (i + 1) * jsCeilDiv size tunnelCount < size :=
      (kept_iff size hcs (i + 1)).mpr hiK
    have hkZ : (((i : Int) + 1)) * (jsCeilDiv size tunnelCount : Int) < (size : Int) := by
      have hc := (Nat.cast_lt (α := Int)).mpr hkept
      push_cast at hc
      linarith
    have hmin : min (((i : Int) + 1) * (jsCeilDiv size tunnelCount : Int) - 1)
        ((size : Int) - 1) = ((i : Int) + 1) * (jsCeilDiv size tunnelCount : Int) - 1 :=
      min_eq_left (by linarith)
    simp only [mkChunk]
    push_cast
    rw [hmin]
    ring
  · intro x
    constructor
    · rintro ⟨hx0, hx1⟩
      obtain ⟨i, hiK, hlow, hhigh⟩ := exists_chunk_for size hcs x hx0 hx1
      refine ⟨i, by rw [hlen]; exact hiK, ?_, ?_⟩
      · rw [hget i (by rw [hlen]; exact hiK)]; exact hlow
      · rw [hget i (by rw [hlen]; exact hiK)]; exact hhigh
    · rintro ⟨i, h, hlow, hhigh⟩
      rw [hget i h] at hlow hhigh
      simp only [mkChunk] at hlow hhigh
      have hstart0 : (0 : Int) ≤ (i : Int) * (jsCeilDiv size tunnelCount : Int) :=
        mul_nonneg (Int.natCast_nonneg i) (by linarith)
      exact ⟨le_trans hstart0 hlow, le_trans hhigh (min_le_right _ _)⟩
  · intro i j hi hj x hi1 hi2 hj1 hj2
    rw [hget i hi] at hi1 hi2
    rw [hget j hj] at hj1 hj2
    simp only [mkChunk] at hi1 hi2 hj1 hj2
    refine chunk_index_unique hcsZ hi1 ?_ hj1 ?_
    · have := le_trans hi2 (min_le_left _ _)
      linarith
    · have := le_trans hj2 (min_le_left _ _)
      linarith

/-- Witness for C1: concrete instance `parallelThreshold = 1`, `size = 5`,
`tunnelCount = 2` (jobs `[0,2]` and `[3,4]`). -/
theorem c1_range_plan_partition_witness :
    (1 ≤ 1 ∧ 1 ≤ 5 ∧ 1 < 2) ∧ ([⟨0, 2, 0, 2⟩, ⟨3, 4, 1, 2⟩] : List RangeJob) = planRangeJobs 5 2 ∧
    ((∀ i (h : i < ([⟨0, 2, 0, 2⟩, ⟨3, 4, 1, 2⟩] : List RangeJob).length),
          (([⟨0, 2, 0, 2⟩, ⟨3, 4, 1, 2⟩] : List RangeJob).get ⟨i, h⟩).chunkIndex = i ∧
          (([⟨0, 2, 0, 2⟩, ⟨3, 4, 1, 2⟩] : List RangeJob).get ⟨i, h⟩).totalChunks
            = ([⟨0, 2, 0, 2⟩, ⟨3, 4, 1, 2⟩] : List RangeJob).length ∧
          (([⟨0, 2, 0, 2⟩, ⟨3, 4, 1, 2⟩] : List RangeJob).get ⟨i, h⟩).rangeStart
            ≤ (([⟨0, 2, 0, 2⟩, ⟨3, 4, 1, 2⟩] : List RangeJob).get ⟨i, h⟩).rangeEnd) ∧
      (∀ i (h1 : i + 1 < ([⟨0, 2, 0, 2⟩, ⟨3, 4, 1, 2⟩] : List RangeJob).length)
          (h0 : i < ([⟨0, 2, 0, 2⟩, ⟨3, 4, 1, 2⟩] : List RangeJob).length),
          (([⟨0, 2, 0, 2⟩, ⟨3, 4, 1, 2⟩] : List RangeJob).get ⟨i + 1, h1⟩).rangeStart
            = (([⟨0, 2, 0, 2⟩, ⟨3, 4, 1, 2⟩] : List RangeJob).get ⟨i, h0⟩).rangeEnd + 1) ∧
      (∀ x : Int,
          (0 ≤ x ∧ x ≤ ((5 : Nat) : Int) - 1) ↔
            ∃ i, ∃ (h : i < ([⟨0, 2, 0, 2⟩, ⟨3, 4, 1, 2⟩] : List RangeJob).length),
              (([⟨0, 2, 0, 2⟩, ⟨3, 4, 1, 2⟩] : List RangeJob).get ⟨i, h⟩).rangeStart ≤ x ∧
                x ≤ (([⟨0, 2, 0, 2⟩, ⟨3, 4, 1, 2⟩] : List RangeJob).get ⟨i, h⟩).rangeEnd) ∧
      (∀ i j (hi : i < ([⟨0, 2, 0, 2⟩, ⟨3, 4, 1, 2⟩] : List RangeJob).length)
          (hj : j < ([⟨0, 2, 0, 2⟩, ⟨3, 4, 1, 2⟩] : List RangeJob).length) (x : Int),
          (([⟨0, 2, 0, 2⟩, ⟨3, 4, 1, 2⟩] : List RangeJob).get ⟨i, hi⟩).rangeStart ≤ x →
          x ≤ (([⟨0, 2, 0, 2⟩, ⟨3, 4, 1, 2⟩] : List RangeJob).get ⟨i, hi⟩).rangeEnd →
          (([⟨0, 2, 0, 2⟩, ⟨3, 4, 1, 2⟩] : List RangeJob).get ⟨j, hj⟩).rangeStart ≤ x →
          x ≤ (([⟨0, 2, 0, 2⟩, ⟨3, 4, 1, 2⟩] : List RangeJob).get ⟨j, hj⟩).rangeEnd →
          i = j)) :=
  ⟨⟨le_refl 1, by decide, by decide⟩, by decide,
    c1_range_plan_partition 1 5 2 (le_refl 1) (by decide) (by decide)
      ([⟨0, 2, 0, 2⟩, ⟨3, 4, 1, 2⟩] : List RangeJob) (by decide)⟩

/-! ## Agent pool (`src/lib/AgentPool.js`) -/

/-- The per-agent state tracked by `AgentPool` (`getStates`, AgentPool.js
lines 711-719): `{id, ready, busy, unhealthy, unhealthyReason, jobInfo}`.  The
process handle and read buffer are I/O resources outside this embedding. -/
structure AgentState where
  id : Nat
  ready : Bool
  busy : Bool
  unhealthy : Bool
  unhealthyReason : Option String
  jobInfo : Option String
deriving Repr, DecidableEq

/-- `getHealthyCount()` (AgentPool.js lines 690-692):
`this.agents.filter((a) => a.ready && !a.unhealthy).length`. -/
def getHealthyCount (agents : List AgentState) : Nat :=
  (agents.filter (fun a => a.ready && !a.unhealthy)).length

/-- Modelled from the spec's glossary: "Healthy — agent that is `ready`, not
`busy`, and not `unhealthy`"; the count of agents healthy in that sense. -/
def specHealthyCount (agents : List AgentState) : Nat :=
  (agents.filter (fun a => a.ready && !a.busy && !a.unhealthy)).length

/-- **C8 counterexample.** A pool whose single agent is `ready`, `busy` and not
`unhealthy`: `getHealthyCount()` returns 1, but 0 agents are healthy in the
spec's sense (ready, not busy, not unhealthy), so the claim that
`healthyCount()` equals the spec-healthy count for every pool state is false. -/
theorem c8_healthy_count_counterexample :
    getHealthyCount [⟨0, true, true, false, none, none⟩] = 1 ∧
    specHealthyCount [⟨0, true, true, false, none, none⟩] = 0 ∧
    getHealthyCount [⟨0, true, true, false, none, none⟩]
      ≠ specHealthyCount [⟨0, true, true, false, none, none⟩] := by
  refine ⟨rfl, rfl, ?_⟩
  decide

/-- **C8 (amended).** `getHealthyCount()` counts the agents that are `ready`
and not `unhealthy`, ignoring `busy`: for every pool state it equals the
spec-healthy count (ready, not busy, not unhealthy) plus the number of busy
but otherwise healthy agents, and therefore never undercounts the
spec-healthy agents. -/
theorem c8_healthy_count_amended (agents : List AgentState) :
    getHealthyCount agents
      = specHealthyCount agents
        + (agents.filter (fun a => a.ready && a.busy && !a.unhealthy)).length ∧
    specHealthyCount agents ≤ getHealthyCount agents := by
  have h : getHealthyCount agents
      = specHealthyCount agents
        + (agents.filter (fun a => a.ready && a.busy && !a.unhealthy)).length := by
    induction agents with
    | nil => rfl
    | cons a rest ih =>
      rcases a with ⟨id, r, b, u, ur, ji⟩
      cases r <;> cases b <;> cases u <;>
        simp [getHealthyCount, specHealthyCount, List.filter] at ih ⊢ <;> omega
  exact ⟨h, by omega⟩

/-! ## The remote agent (`PYTHON_AGENT` embedded in `src/lib/AgentPool.js`) -/

/-- `actual_len = min(ln, max(0, file_size - off))` (agent `handle_request`,
AgentPool.js line 55), computed in ℤ exactly as Python does on its
arbitrary-precision integers. -/
def agentActualLen (fileSize off ln : Nat) : Int :=
  min (ln : Int) (max 0 ((fileSize : Int) - (off : Int)))

/-- The agent's streaming loop (AgentPool.js lines 66-78): starting at file
position `pos` with `remaining` bytes still owed, repeatedly
`read(min(CHUNK, remaining))` with `CHUNK = 262144`, stop on EOF (`if not
data: break`), concatenating everything written to stdout.  A file is its
byte list; `read` at position `p` returns the next `n` bytes. -/
def streamLoop (file : List Nat) (pos remaining : Nat) : List Nat :=
  if _h : remaining = 0 then []
  else
    if _h2 : ((file.drop pos).take (min 262144 remaining)).length = 0 then []
    else
      ((file.drop pos).take (min 262144 remaining))
        ++ streamLoop file (pos + ((file.drop pos).take (min 262144 remaining)).length)
            (remaining - ((file.drop pos).take (min 262144 remaining)).length)
termination_by remaining
decreasing_by
  simp only [List.length_take, List.length_drop] at *
  omega

/-- The response to one request, as the agent sends it: the header
`status(1) + data_len(8)` followed by the body bytes. -/
structure AgentResponse where
  status : Nat
  dataLen : Nat
  data : List Nat
deriving Repr, DecidableEq

/-- The success path of the agent's `handle_request` (AgentPool.js lines
52-81) for a readable file `file` (its byte list; `file_size = file.length`):
send `struct.pack('>BQ', 0, actual_len)` and stream `actual_len` bytes from
offset `off`. -/
def handleRequest (file : List Nat) (off ln : Nat) : AgentResponse :=
  { status := 0
    dataLen := (agentActualLen file.length off ln).toNat
    data := streamLoop file off (agentActualLen file.length off ln).toNat }

theorem streamLoop_eq_take (file : List Nat) (remaining : Nat) :
    ∀ pos, remaining ≤ file.length - pos →
      streamLoop file pos remaining = (file.drop pos).take remaining := by
  induction remaining using Nat.strong_induction_on with
  | _ remaining ih =>
    intro pos hle
    unfold streamLoop
    by_cases h0 : remaining = 0
    · subst h0
      simp
    · rw [dif_neg h0]
      have hdrop : (file.drop pos).length = file.length - pos := List.length_drop pos file
      have hdlen : ((file.drop pos).take (min 262144 remaining)).length
          = min 262144 remaining := by
        rw [List.length_take, hdrop]
        omega
      have hpos : 0 < min 262144 remaining := by omega
      rw [dif_neg (by rw [hdlen]; omega)]
      rw [hdlen]
      have hrec := ih (remaining - min 262144 remaining) (by omega)
        (pos + min 262144 remaining) (by omega)
      rw [hrec]
      have hsplit : remaining = min 262144 remaining + (remaining - min 262144 remaining) := by
        omega
      conv_rhs => rw [hsplit]
      rw [List.take_add]
      congr 1
      rw [← List.drop_drop]

/-- **C3.** For every agent request `(path, offset, length)` naming a readable
remote file (modelled by its byte list, so `file_size = file.length`), the
agent replies with `status = 0` and a header whose `data_len` equals
`min(length, max(0, file_size - offset))`, followed by exactly `data_len`
bytes of file data (the bytes of the file from `offset`); in particular
`data_len = 0` when `offset ≥ file_size`. -/
theorem c3_agent_reply (file : List Nat) (off ln : Nat) :
    (handleRequest file off ln).status = 0 ∧
    ((handleRequest file off ln).dataLen : Int)
      = min (ln : Int) (max 0 ((file.length : Int) - (off : Int))) ∧
    (handleRequest file off ln).data
      = (file.drop off).take (handleRequest file off ln).dataLen ∧
    (handleRequest file off ln).data.length = (handleRequest file off ln).dataLen ∧
    (file.length ≤ off → (handleRequest file off ln).dataLen = 0) := by
  have hnn : 0 ≤ agentActualLen file.length off ln := by
    unfold agentActualLen
    omega
  have htn : ((agentActualLen file.length off ln).toNat : Int)
      = agentActualLen file.length off ln := Int.toNat_of_nonneg hnn
  have hbound : (agentActualLen file.length off ln).toNat ≤ file.length - off := by
    unfold agentActualLen at *
    omega
  have hdata : (handleRequest file off ln).data
      = (file.drop off).take (agentActualLen file.length off ln).toNat :=
    streamLoop_eq_take file _ off hbound
  refine ⟨rfl, by rw [show (handleRequest file off ln).dataLen
      = (agentActualLen file.length off ln).toNat from rfl, htn]; rfl,
    hdata, ?_, ?_⟩
  · rw [hdata, List.length_take, List.length_drop]
    show min _ (file.length - off) = (agentActualLen file.length off ln).toNat
    omega
  · intro hoff
    show (agentActualLen file.length off ln).toNat = 0
    unfold agentActualLen
    omega

/-- Witness for C3 at the concrete file `[10, 11, 12, 13]`, `offset = 3`,
`length = 5` (short read: only one byte is available). -/
theorem c3_agent_reply_witness :
    (handleRequest [10, 11, 12, 13] 3 5).status = 0 ∧
    ((handleRequest [10, 11, 12, 13] 3 5).dataLen : Int)
      = min ((5 : Nat) : Int)
          (max 0 ((([10, 11, 12, 13] : List Nat).length : Int) - ((3 : Nat) : Int))) ∧
    (handleRequest [10, 11, 12, 13] 3 5).data
      = (([10, 11, 12, 13] : List Nat).drop 3).take
          (handleRequest [10, 11, 12, 13] 3 5).dataLen ∧
    (handleRequest [10, 11, 12, 13] 3 5).data.length
      = (handleRequest [10, 11, 12, 13] 3 5).dataLen ∧
    (([10, 11, 12, 13] : List Nat).length ≤ 3 →
      (handleRequest [10, 11, 12, 13] 3 5).dataLen = 0) :=
  c3_agent_reply [10, 11, 12, 13] 3 5

/-! ## Request framing (`readRangeStreaming` encoder, agent frame reader) -/

/-- `request.writeUInt16BE(n, 0)`: the two big-endian bytes of a 16-bit
value. -/
def u16be (n : Nat) : List Nat :=
  [n / 256 % 256, n % 256]

/-- `request.writeBigUInt64BE(BigInt(n), _)`: the eight big-endian bytes of a
64-bit value. -/
def u64be (n : Nat) : List Nat :=
  [n / 2 ^ 56 % 256, n / 2 ^ 48 % 256, n / 2 ^ 40 % 256, n / 2 ^ 32 % 256,
   n / 2 ^ 24 % 256, n / 2 ^ 16 % 256, n / 2 ^ 8 % 256, n % 256]

/-- Big-endian value of a byte list, as `struct.unpack('>H', …)` /
`struct.unpack('>QQ', …)` compute it for exact-width fields. -/
def beVal (bs : List Nat) : Nat :=
  bs.foldl (fun acc b => acc * 256 + b) 0

/-- The request buffer built by `readRangeStreaming` (AgentPool.js lines
462-468): `u16 path_len | path bytes | u64 offset | u64 length`, all
big-endian.  The path is its UTF-8 byte list (`Buffer.from(remotePath,
"utf8")`). -/
def encodeRequest (path : List Nat) (off ln : Nat) : List Nat :=
  u16be path.length ++ path ++ u64be off ++ u64be ln

/-- The agent's frame reader (`handle_request`, AgentPool.js agent source lines
36-49): `read_exact(2)` decoded as big-endian u16 path length, `read_exact(pl)`
path bytes, `read_exact(16)` decoded as two big-endian u64s (`offset`,
`length`).  `none` models the agent's clean exit when the stream is too
short. -/
def decodeRequest (stream : List Nat) : Option (List Nat × Nat × Nat) :=
  if (stream.take 2).length = 2 then
    if ((stream.drop 2).take (beVal (stream.take 2))).length = beVal (stream.take 2) then
      if (((stream.drop 2).drop (beVal (stream.take 2))).take 16).length = 16 then
        some ((stream.drop 2).take (beVal (stream.take 2)),
          beVal ((((stream.drop 2).drop (beVal (stream.take 2))).take 16).take 8),
          beVal ((((stream.drop 2).drop (beVal (stream.take 2))).take 16).drop 8))
      else none
    else none
  else none

example :
    decodeRequest (encodeRequest [104, 105] 300 77) = some ([104, 105], 300, 77) := by
  decide

theorem beVal_u16be (n : Nat) (h : n < 2 ^ 16) : beVal (u16be n) = n := by
  simp only [u16be, beVal, List.foldl]
  omega

theorem beVal_u64be (n : Nat) (h : n < 2 ^ 64) : beVal (u64be n) = n := by
  simp only [u64be, beVal, List.foldl]
  omega

theorem u64be_length (n : Nat) : (u64be n).length = 8 := rfl

/-- **C4.** For every request triple with a path of at most 65535 bytes and
`offset, length < 2^64`, the request buffer built by `readRangeStreaming`
(`u16 path_len | path | u64 offset | u64 length`, big-endian) is decoded by
the agent's frame reader back to exactly the same path, offset and length:
encoding then decoding is the identity. -/
theorem c4_framing_roundtrip (path : List Nat) (off ln : Nat)
    (hp : path.length ≤ 65535) (ho : off < 2 ^ 64) (hl : ln < 2 ^ 64) :
    decodeRequest (encodeRequest path off ln) = some (path, off, ln) := by
  have htake2 : (encodeRequest path off ln).take 2 = u16be path.length := by
    simp [encodeRequest, u16be]
  have hdrop2 : (encodeRequest path off ln).drop 2 = path ++ (u64be off ++ u64be ln) := by
    simp [encodeRequest, u16be]
  have hpl : beVal ((encodeRequest path off ln).take 2) = path.length := by
    rw [htake2, beVal_u16be path.length (by omega)]
  unfold decodeRequest
  rw [hpl, htake2, hdrop2, List.take_left, List.drop_left]
  rw [List.take_of_length_le (show (u64be off ++ u64be ln).length ≤ 16 by simp [u64be])]
  rw [List.take_left' (u64be_length off), List.drop_left' (u64be_length off)]
  rw [beVal_u64be off ho, beVal_u64be ln hl]
  simp [u16be, u64be]

/-- Witness for C4 at `path = [104, 105]`, `offset = 300`, `length = 77`. -/
theorem c4_framing_roundtrip_witness :
    ([104, 105] : List Nat).length ≤ 65535 ∧ 300 < 2 ^ 64 ∧ 77 < 2 ^ 64 ∧
    decodeRequest (encodeRequest [104, 105] 300 77) = some ([104, 105], 300, 77) :=
  ⟨by decide, by decide, by decide,
    c4_framing_roundtrip [104, 105] 300 77 (by decide) (by decide) (by decide)⟩

/-! ## Scheduler data model (`src/unnamed/part_004`) -/

/-- A file entry as produced by `listRemoteFiles` (AgentPool.js lines
583-636): relative `path`, `fullPath`, `size`, `mode`, `mtime`. -/
structure FileEntry where
  path : String
  fullPath : String
  size : Nat
  mode : Nat
  mtime : Nat
deriving Repr, DecidableEq

/-- A scheduler job (part_004 lines 256-281): either
`{type:"file", file, localPath, remotePath}` or
`{type:"range", file, localPath, remotePath, rangeStart, rangeEnd,
chunkIndex, totalChunks}`. -/
inductive Job where
  | whole (file : FileEntry) (localPath remotePath : String)
  | range (file : FileEntry) (localPath remotePath : String) (rj : RangeJob)
deriving Repr, DecidableEq

def Job.file : Job → FileEntry
  | .whole f _ _ => f
  | .range f _ _ _ => f

def Job.localPath : Job → String
  | .whole _ lp _ => lp
  | .range _ lp _ _ => lp

def Job.isRange : Job → Bool
  | .range _ _ _ _ => true
  | _ => false

/-- The failure description string (part_004 lines 438-439):
`"<remotePath> chunk k/total"` for range jobs, `remotePath` otherwise. -/
def jobDescOf : Job → String
  | .range _ _ rp rj =>
      rp ++ " chunk " ++ toString (rj.chunkIndex + 1) ++ "/" ++ toString rj.totalChunks
  | .whole _ _ rp => rp

/-! ## Failure handling (`onJobFailed`, part_004 lines 429-482) -/

/-- Whether `pat` is a leading run of `cs` (character-exact). -/
def startsWithChars : List Char → List Char → Bool
  | [], _ => true
  | _ :: _, [] => false
  | p :: ps, c :: cs => p == c && startsWithChars ps cs

/-- Whether `pat` occurs contiguously anywhere in the character list. -/
def hasSubChars (pat : List Char) : List Char → Bool
  | [] => startsWithChars pat []
  | c :: cs => startsWithChars pat (c :: cs) || hasSubChars pat cs

/-- JavaScript `String.prototype.includes`. -/
def strIncludes (s pat : String) : Bool :=
  hasSubChars pat.data s.data

example : strIncludes "Agent 3 read stalled: no data" "stalled" = true := by decide
example : strIncludes "permission denied" "Agent" = false := by decide

/-- `isStallError` (part_004 line 434). -/
def isStallErrorOf (m : String) : Bool :=
  strIncludes m "stalled" || strIncludes m "read timeout" || strIncludes m "read stalled"

/-- `isAgentError` (part_004 line 435). -/
def isAgentErrorOf (m : String) : Bool :=
  strIncludes m "connection closed" || strIncludes m "Agent" || isStallErrorOf m

/-- `release(id)` (AgentPool.js lines 694-701): clear `busy` and `jobInfo` on
the first agent with this id. -/
def releaseAgent : List AgentState → Nat → List AgentState
  | [], _ => []
  | a :: rest, id =>
      if a.id = id then { a with busy := false, jobInfo := none } :: rest
      else a :: releaseAgent rest id

/-- `markUnhealthy(id, reason)` (AgentPool.js lines 675-687): set `unhealthy`
and `unhealthyReason` on the first agent with this id. -/
def markUnhealthyAgent : List AgentState → Nat → String → List AgentState
  | [], _, _ => []
  | a :: rest, id, reason =>
      if a.id = id then { a with unhealthy := true, unhealthyReason := some reason } :: rest
      else a :: markUnhealthyAgent rest id reason

/-- `this.agents.find((a) => a.id === id)`. -/
def lookupAgent : List AgentState → Nat → Option AgentState
  | [], _ => none
  | a :: rest, id => if a.id = id then some a else lookupAgent rest id

/-- Outcome of one `onJobFailed` call: the pool afterwards, the pending queue
afterwards, the value stored in `jobRetries` for this job, and the rejection
message if the whole transfer was rejected. -/
structure FailResult where
  agents : List AgentState
  pending : List Job
  retriesAfter : Nat
  rejected : Option String
deriving Repr, DecidableEq

/-- `onJobFailed` (part_004 lines 429-482).  `prevRetries` is
`jobRetries.get(job) || 0` before this failure.  The agent is released
(`activeJobs.delete` only touches the dispatch map), the error message is
classified, an agent-level error marks the agent unhealthy, and then either
the job is re-queued without counting a retry (agent error with
`getHealthyCount() > 0`), re-queued with the counter incremented
(`retries < 3`), or the transfer is rejected. -/
def onJobFailed (agents : List AgentState) (agentId : Nat) (job : Job)
    (errMsg : String) (prevRetries : Nat) (pending : List Job) : FailResult :=
  let agents1 := releaseAgent agents agentId
  let agents2 := if isAgentErrorOf errMsg then markUnhealthyAgent agents1 agentId errMsg
                 else agents1
  let healthyCount := getHealthyCount agents2
  if isAgentErrorOf errMsg && decide (healthyCount > 0) then
    { agents := agents2, pending := pending ++ [job],
      retriesAfter := prevRetries, rejected := none }
  else
    if prevRetries + 1 < 3 then
      { agents := agents2, pending := pending ++ [job],
        retriesAfter := prevRetries + 1, rejected := none }
    else
      if healthyCount = 0 then
        { agents := agents2, pending := pending, retriesAfter := prevRetries + 1,
          rejected := some ("All agents failed - last error: " ++ errMsg) }
      else
        { agents := agents2, pending := pending, retriesAfter := prevRetries + 1,
          rejected := some ("Download failed: " ++ jobDescOf job ++ " - " ++ errMsg) }

theorem lookupAgent_release (l : List AgentState) (id : Nat) :
    lookupAgent (releaseAgent l id) id
      = (lookupAgent l id).map (fun a => { a with busy := false, jobInfo := none }) := by
  induction l with
  | nil => rfl
  | cons a rest ih =>
    by_cases h : a.id = id
    · simp [releaseAgent, lookupAgent, h]
    · simp [releaseAgent, lookupAgent, h, ih]

theorem lookupAgent_markUnhealthy (l : List AgentState) (id : Nat) (reason : String) :
    lookupAgent (markUnhealthyAgent l id reason) id
      = (lookupAgent l id).map
          (fun a => { a with unhealthy := true, unhealthyReason := some reason }) := by
  induction l with
  | nil => rfl
  | cons a rest ih =>
    by_cases h : a.id = id
    · simp [markUnhealthyAgent, lookupAgent, h]
    · simp [markUnhealthyAgent, lookupAgent, h, ih]

/-- **C2 counterexample.**  A single-agent pool whose agent fails a range job
with the agent-level marker `"read stalled"` on the job's 3rd job-level
failure: after marking, no healthy agent remains, so the failure falls
through to job-level handling and the transfer is rejected — but with the
exhaustion message `All agents failed - last error: read stalled`, which
names neither the chunk (`"<remotePath> chunk k/total"`) nor the remote
path, contradicting the claim that the 3rd job-level failure's message names
the chunk. -/
theorem c2_agent_failure_counterexample :
    isAgentErrorOf "read stalled" = true ∧
    (onJobFailed [⟨1, true, true, false, none, none⟩] 1
        (Job.range ⟨"big.iso", "/srv/big.iso", 100, 420, 0⟩ "/dl/big.iso"
          "/srv/big.iso" ⟨0, 24, 0, 4⟩)
        "read stalled" 2 []).rejected
      = some "All agents failed - last error: read stalled" ∧
    jobDescOf (Job.range ⟨"big.iso", "/srv/big.iso", 100, 420, 0⟩ "/dl/big.iso"
        "/srv/big.iso" ⟨0, 24, 0, 4⟩) = "/srv/big.iso chunk 1/4" ∧
    strIncludes "All agents failed - last error: read stalled" "/srv/big.iso" = false ∧
    strIncludes "All agents failed - last error: read stalled" "chunk" = false := by
  refine ⟨by decide, by decide, by decide, by decide, by decide⟩

/-- **C2 (amended).** For every job failing with an error message containing
one of the agent-level markers (`"stalled"`, `"read timeout"`,
`"read stalled"`, `"connection closed"`, `"Agent"`), the failing agent is
marked unhealthy (released, with `unhealthyReason` recorded); if
`getHealthyCount() > 0` afterwards, the job is re-queued at the tail without
incrementing its retry counter; if no healthy agent remains the failure falls
through to job-level handling: the counter is incremented, a count below 3
re-queues the job, and the 3rd job-level failure rejects the transfer — in
this exhausted state with the message
`All agents failed - last error: <err>`, which names the underlying error
but not the chunk (the chunk-naming `Download failed: <jobDesc> - <err>`
message is used only when healthy agents remain). -/
theorem c2_agent_failure_amended (agents : List AgentState) (agentId : Nat)
    (job : Job) (errMsg : String) (prevRetries : Nat) (pending : List Job)
    (hmark : isAgentErrorOf errMsg = true) :
    (lookupAgent (onJobFailed agents agentId job errMsg prevRetries pending).agents agentId
        = (lookupAgent agents agentId).map
            (fun a =>
              { a with
                  busy := false
                  jobInfo := none
                  unhealthy := true
                  unhealthyReason := some errMsg })) ∧
    (0 < getHealthyCount (markUnhealthyAgent (releaseAgent agents agentId) agentId errMsg) →
      (onJobFailed agents agentId job errMsg prevRetries pending).pending = pending ++ [job] ∧
      (onJobFailed agents agentId job errMsg prevRetries pending).retriesAfter = prevRetries ∧
      (onJobFailed agents agentId job errMsg prevRetries pending).rejected = none) ∧
    (getHealthyCount (markUnhealthyAgent (releaseAgent agents agentId) agentId errMsg) = 0 →
      (onJobFailed agents agentId job errMsg prevRetries pending).retriesAfter
          = prevRetries + 1 ∧
      (prevRetries + 1 < 3 →
        (onJobFailed agents agentId job errMsg prevRetries pending).pending
            = pending ++ [job] ∧
        (onJobFailed agents agentId job errMsg prevRetries pending).rejected = none) ∧
      (3 ≤ prevRetries + 1 →
        (onJobFailed agents agentId job errMsg prevRetries pending).pending = pending ∧
        (onJobFailed agents agentId job errMsg prevRetries pending).rejected
            = some ("All agents failed - last error: " ++ errMsg))) := by
  refine ⟨?_, ?_, ?_⟩
  · have hag : (onJobFailed agents agentId job errMsg prevRetries pending).agents
        = markUnhealthyAgent (releaseAgent agents agentId) agentId errMsg := by
      unfold onJobFailed
      rw [hmark]
      by_cases hc : 0 < getHealthyCount
          (markUnhealthyAgent (releaseAgent agents agentId) agentId errMsg) <;>
        simp [hc] <;> split_ifs <;> rfl
    rw [hag, lookupAgent_markUnhealthy, lookupAgent_release, Option.map_map]
    cases lookupAgent agents agentId <;> rfl
  · intro hh
    have hexp : onJobFailed agents agentId job errMsg prevRetries pending
        = { agents := markUnhealthyAgent (releaseAgent agents agentId) agentId errMsg,
            pending := pending ++ [job], retriesAfter := prevRetries,
            rejected := none } := by
      unfold onJobFailed
      rw [hmark]
      simp [hh]
    rw [hexp]
    exact ⟨rfl, rfl, rfl⟩
  · intro hh
    have hexp : onJobFailed agents agentId job errMsg prevRetries pending
        = if prevRetries + 1 < 3 then
            { agents := markUnhealthyAgent (releaseAgent agents agentId) agentId errMsg,
              pending := pending ++ [job], retriesAfter := prevRetries + 1,
              rejected := none }
          else
            { agents := markUnhealthyAgent (releaseAgent agents agentId) agentId errMsg,
              pending := pending, retriesAfter := prevRetries + 1,
              rejected := some ("All agents failed - last error: " ++ errMsg) } := by
      unfold onJobFailed
      rw [hmark]
      simp [hh]
    by_cases hr : prevRetries + 1 < 3
    · rw [hexp, if_pos hr]
      exact ⟨rfl, fun _ => ⟨rfl, rfl⟩, fun hge => absurd hr (by omega)⟩
    · rw [hexp, if_neg hr]
      exact ⟨rfl, fun hlt => absurd hlt hr, fun _ => ⟨rfl, rfl⟩⟩

/-- Witness for C2 (amended): an empty pool, a whole job failing with
`"read stalled"` and no prior retries — the counter is incremented to 1. -/
theorem c2_agent_failure_amended_witness :
    isAgentErrorOf "read stalled" = true ∧
    (onJobFailed [] 1 (Job.whole ⟨"x", "/srv/x", 1, 0, 0⟩ "/dl/x" "/srv/x")
        "read stalled" 0 []).retriesAfter = 0 + 1 :=
  ⟨by decide,
    ((c2_agent_failure_amended [] 1
        (Job.whole ⟨"x", "/srv/x", 1, 0, 0⟩ "/dl/x" "/srv/x")
        "read stalled" 0 [] (by decide)).2.2 (by decide)).1⟩

/-! ## Planning and the successful-run accounting (`downloadFiles`, part_004) -/

/-- The second planning pass (part_004 lines 269-274): set `totalChunks := k`
on every range job whose `localPath` matches. -/
def setTotal (lp : String) (k : Nat) : Job → Job
  | Job.range f l r rj =>
      if l = lp then Job.range f l r { rj with totalChunks := k }
      else Job.range f l r rj
  | j => j

/-- Accumulator of the planning loop: the `jobs` array, `skippedBytes`, and
the emitted `file:skip` events `(file.path, file.size)`. -/
structure PlanState where
  jobs : List Job
  skippedBytes : Nat
  skipEvents : List (String × Nat)
deriving Repr, DecidableEq

/-- One iteration of the planning loop over `this.files` (part_004 lines
229-283).  `fs localPath = some size` models `existsSync(localPath)` with a
successful `statSync` of that size (`none` covers both a missing file and a
failed stat, in which case the code proceeds with the download);
`lp` is `getLocalPath`.  A matching local file is skipped; a file with
`size >= parallelThreshold && tunnelCount > 1` produces the range jobs of
`planRangeJobs` followed by the global `totalChunks` rewrite pass; any other
file produces one whole job. -/
def planFileStep (fs : String → Option Nat) (lp : FileEntry → String)
    (parallelThreshold tunnelCount : Nat) (st : PlanState) (file : FileEntry) :
    PlanState :=
  if fs (lp file) = some file.size then
    { st with
        skippedBytes := st.skippedBytes + file.size
        skipEvents := st.skipEvents ++ [(file.path, file.size)] }
  else if parallelThreshold ≤ file.size ∧ 1 < tunnelCount then
    { st with
        jobs := (st.jobs
            ++ (planRangeJobs file.size tunnelCount).map
                (fun rj => Job.range file (lp file) file.fullPath rj)).map
          (setTotal (lp file) (planRangeJobs file.size tunnelCount).length) }
  else
    { st with jobs := st.jobs ++ [Job.whole file (lp file) file.fullPath] }

/-- The whole planning loop (part_004 lines 226-283), starting from the empty
jobs array. -/
def planFiles (fs : String → Option Nat) (lp : FileEntry → String)
    (parallelThreshold tunnelCount : Nat) (files : List FileEntry) : PlanState :=
  files.foldl (planFileStep fs lp parallelThreshold tunnelCount) ⟨[], 0, []⟩

/-- Bytes a job streams when it succeeds: `downloadRange` requests
`length = rangeEnd - rangeStart + 1` from offset `rangeStart` and its
`onProgress` deltas sum to that length; `downloadFile` requests `fileSize`
bytes from offset 0 (Downloader, agent-based variant, lines 150-215). -/
def jobBytes : Job → Int
  | Job.whole f _ _ => (f.size : Int)
  | Job.range _ _ _ rj => rj.rangeEnd - rj.rangeStart + 1

/-- Observable summary of one completed transfer. -/
structure RunSummary where
  jobs : List Job
  skippedBytes : Nat
  skipEvents : List (String × Nat)
  totalBytes : Nat
  progressChunkSum : Int
  bytesReceived : Int
  dispatched : Bool
  completeEvent : Option Int
deriving Repr, DecidableEq

/-- The observable summary of a transfer in which every planned job succeeds
(`downloadFiles` resolving normally and `download` emitting `complete`,
part_004 lines 166-185 and 295-309): planning results, `totalBytes`, the sum
of `chunkBytes` over all `file:progress` events (the synthetic skip progress
event with `chunkBytes = skippedBytes` is emitted exactly when
`skippedBytes > 0`), the final `bytesReceived`, whether the dispatch loop ran
at all (`jobs.length === 0` returns before any agent is acquired), and the
`complete` event's payload. -/
def runDownload (fs : String → Option Nat) (lp : FileEntry → String)
    (parallelThreshold tunnelCount : Nat) (files : List FileEntry) : RunSummary :=
  { jobs := (planFiles fs lp parallelThreshold tunnelCount files).jobs
    skippedBytes := (planFiles fs lp parallelThreshold tunnelCount files).skippedBytes
    skipEvents := (planFiles fs lp parallelThreshold tunnelCount files).skipEvents
    totalBytes := (files.map FileEntry.size).sum
    progressChunkSum :=
      (if 0 < (planFiles fs lp parallelThreshold tunnelCount files).skippedBytes then
        ((planFiles fs lp parallelThreshold tunnelCount files).skippedBytes : Int)
      else 0)
        + ((planFiles fs lp parallelThreshold tunnelCount files).jobs.map jobBytes).sum
    bytesReceived :=
      ((planFiles fs lp parallelThreshold tunnelCount files).skippedBytes : Int)
        + ((planFiles fs lp parallelThreshold tunnelCount files).jobs.map jobBytes).sum
    dispatched := !(planFiles fs lp parallelThreshold tunnelCount files).jobs.isEmpty
    completeEvent :=
      some (((planFiles fs lp parallelThreshold tunnelCount files).skippedBytes : Int)
        + ((planFiles fs lp parallelThreshold tunnelCount files).jobs.map jobBytes).sum) }

theorem span_sum_aux (size cs : Nat) (K : Nat) :
    (∀ i, i < K → i * cs < size) →
      ((List.range K).map
        (fun (i : Nat) =>
          min (((i : Int) + 1) * cs - 1) ((size : Int) - 1) - (i : Int) * cs + 1)).sum
      = min ((K : Int) * cs) (size : Int) := by
  induction K with
  | zero =>
    intro _
    simp only [List.range_zero, List.map_nil, List.sum_nil, Nat.cast_zero, zero_mul]
    omega
  | succ n ih =>
    intro hK
    rw [List.range_succ, List.map_append, List.sum_append,
      ih (fun i hi => hK i (Nat.lt_succ_of_lt hi))]
    simp only [List.map_cons, List.map_nil, List.sum_cons, List.sum_nil]
    have h1 : n * cs < size := hK n (Nat.lt_succ_self n)
    have h1Z : (n : Int) * cs < (size : Int) := by exact_mod_cast h1
    have hmin1 : min ((n : Int) * cs) (size : Int) = (n : Int) * cs :=
      min_eq_left (le_of_lt h1Z)
    rw [hmin1]
    push_cast
    omega

theorem planRangeJobs_span_sum (size tc : Nat) (hs : 1 ≤ size) (htc : 1 ≤ tc) :
    ((planRangeJobs size tc).map (fun rj => rj.rangeEnd - rj.rangeStart + 1)).sum
      = (size : Int) := by
  rw [planRangeJobs_closed size tc hs htc, List.map_map]
  have hcs : 1 ≤ jsCeilDiv size tc := jsCeilDiv_pos hs htc
  have hK : ∀ i, i < numChunks size (jsCeilDiv size tc) → i * jsCeilDiv size tc < size :=
    fun i hi => (kept_iff size hcs i).mpr hi
  have h := span_sum_aux size (jsCeilDiv size tc) (numChunks size (jsCeilDiv size tc)) hK
  have hge : size ≤ jsCeilDiv size tc * numChunks size (jsCeilDiv size tc) :=
    size_le_mul_jsCeilDiv hcs
  have hgeZ : (size : Int) ≤ (numChunks size (jsCeilDiv size tc) : Int) * jsCeilDiv size tc := by
    have := (Nat.cast_le (α := Int)).mpr hge
    push_cast at this ⊢
    linarith [this]
  calc ((List.range (numChunks size (jsCeilDiv size tc))).map
          ((fun rj => rj.rangeEnd - rj.rangeStart + 1)
            ∘ mkChunk size (jsCeilDiv size tc) (numChunks size (jsCeilDiv size tc)))).sum
      = min ((numChunks size (jsCeilDiv size tc) : Int) * jsCeilDiv size tc) (size : Int) := h
    _ = (size : Int) := min_eq_right hgeZ

theorem jobBytes_setTotal (lp : String) (k : Nat) (j : Job) :
    jobBytes (setTotal lp k j) = jobBytes j := by
  cases j with
  | whole f l r => rfl
  | range f l r rj =>
    simp only [setTotal]
    split_ifs <;> rfl

theorem sum_jobBytes_setTotal (lp : String) (k : Nat) (l : List Job) :
    ((l.map (setTotal lp k)).map jobBytes).sum = (l.map jobBytes).sum := by
  induction l with
  | nil => rfl
  | cons j rest ih =>
    simp only [List.map_cons, List.sum_cons, ih, jobBytes_setTotal]

theorem sum_jobBytes_rangeWrap (f : FileEntry) (lp rp : String) (rjs : List RangeJob) :
    ((rjs.map (fun rj => Job.range f lp rp rj)).map jobBytes).sum
      = (rjs.map (fun rj => rj.rangeEnd - rj.rangeStart + 1)).sum := by
  induction rjs with
  | nil => rfl
  | cons rj rest ih =>
    simp only [List.map_cons, List.sum_cons, ih]
    rfl

theorem planFileStep_sum (fs : String → Option Nat) (lp : FileEntry → String)
    (thr tc : Nat) (hthr : 1 ≤ thr) (st : PlanState) (f : FileEntry) :
    (((planFileStep fs lp thr tc st f).jobs.map jobBytes).sum
        + ((planFileStep fs lp thr tc st f).skippedBytes : Int))
      = ((st.jobs.map jobBytes).sum + (st.skippedBytes : Int)) + (f.size : Int) := by
  unfold planFileStep
  split_ifs with h1 h2
  · show (st.jobs.map jobBytes).sum + ((st.skippedBytes + f.size : Nat) : Int)
        = (st.jobs.map jobBytes).sum + (st.skippedBytes : Int) + (f.size : Int)
    push_cast
    ring
  · show ((((st.jobs
          ++ (planRangeJobs f.size tc).map (fun rj => Job.range f (lp f) f.fullPath rj)).map
            (setTotal (lp f) (planRangeJobs f.size tc).length)).map jobBytes).sum
        + (st.skippedBytes : Int))
      = (st.jobs.map jobBytes).sum + (st.skippedBytes : Int) + (f.size : Int)
    rw [List.map_append, List.map_append, List.sum_append, sum_jobBytes_setTotal,
      sum_jobBytes_setTotal, sum_jobBytes_rangeWrap,
      planRangeJobs_span_sum f.size tc (le_trans hthr h2.1) (le_of_lt h2.2)]
    ring
  · show (((st.jobs ++ [Job.whole f (lp f) f.fullPath]).map jobBytes).sum
        + (st.skippedBytes : Int))
      = (st.jobs.map jobBytes).sum + (st.skippedBytes : Int) + (f.size : Int)
    rw [List.map_append, List.sum_append]
    simp only [List.map_cons, List.map_nil, List.sum_cons, List.sum_nil, jobBytes]
    ring

theorem planFiles_sum_aux (fs : String → Option Nat) (lp : FileEntry → String)
    (thr tc : Nat) (hthr : 1 ≤ thr) (files : List FileEntry) :
    ∀ st : PlanState,
      (((files.foldl (planFileStep fs lp thr tc) st).jobs.map jobBytes).sum
          + (((files.foldl (planFileStep fs lp thr tc) st).skippedBytes : Nat) : Int))
        = ((st.jobs.map jobBytes).sum + (st.skippedBytes : Int))
          + ((files.map FileEntry.size).sum : Int) := by
  induction files with
  | nil =>
    intro st
    simp
  | cons f rest ih =>
    intro st
    rw [List.foldl_cons, ih (planFileStep fs lp thr tc st f), planFileStep_sum fs lp thr tc hthr]
    simp only [List.map_cons, List.sum_cons]
    push_cast
    ring

theorem planFiles_sum (fs : String → Option Nat) (lp : FileEntry → String)
    (thr tc : Nat) (hthr : 1 ≤ thr) (files : List FileEntry) :
    (((planFiles fs lp thr tc files).jobs.map jobBytes).sum
        + ((planFiles fs lp thr tc files).skippedBytes : Int))
      = ((files.map FileEntry.size).sum : Int) := by
  unfold planFiles
  rw [planFiles_sum_aux fs lp thr tc hthr files ⟨[], 0, []⟩]
  simp

/-- **C7 counterexample.** One file (`a`, 5 bytes) already present locally and
skipped, one file (`b`, 3 bytes) downloaded whole: the skip accounting emits a
`file:progress` event with `chunkBytes = skippedBytes = 5`, so the sum of
`chunkBytes` over all progress events is already `totalBytes = 8`; adding
`skippedBytes` again gives 13 ≠ 8, refuting the claimed
`sum(chunkBytes) + skippedBytes = totalBytes`. -/
theorem c7_progress_sum_counterexample :
    (runDownload (fun s => if s = "a" then some 5 else none) (fun f => f.path) 100 8
        [⟨"a", "/srv/a", 5, 0, 0⟩, ⟨"b", "/srv/b", 3, 0, 0⟩]).skippedBytes = 5 ∧
    (runDownload (fun s => if s = "a" then some 5 else none) (fun f => f.path) 100 8
        [⟨"a", "/srv/a", 5, 0, 0⟩, ⟨"b", "/srv/b", 3, 0, 0⟩]).progressChunkSum = 8 ∧
    (runDownload (fun s => if s = "a" then some 5 else none) (fun f => f.path) 100 8
        [⟨"a", "/srv/a", 5, 0, 0⟩, ⟨"b", "/srv/b", 3, 0, 0⟩]).totalBytes = 8 ∧
    (runDownload (fun s => if s = "a" then some 5 else none) (fun f => f.path) 100 8
          [⟨"a", "/srv/a", 5, 0, 0⟩, ⟨"b", "/srv/b", 3, 0, 0⟩]).progressChunkSum
        + ((runDownload (fun s => if s = "a" then some 5 else none) (fun f => f.path) 100 8
          [⟨"a", "/srv/a", 5, 0, 0⟩, ⟨"b", "/srv/b", 3, 0, 0⟩]).skippedBytes : Int)
      ≠ ((runDownload (fun s => if s = "a" then some 5 else none) (fun f => f.path) 100 8
          [⟨"a", "/srv/a", 5, 0, 0⟩, ⟨"b", "/srv/b", 3, 0, 0⟩]).totalBytes : Int) := by
  refine ⟨by decide, by decide, by decide, by decide⟩

/-- **C7 (amended).** After a transfer ends with the `complete` event, the sum
of `chunkBytes` over all emitted `file:progress` events — the synthetic skip
event included — equals `totalBytes` (and so does the final `bytesReceived`);
the spec's formula `sum + skippedBytes = totalBytes` double-counts the skipped
bytes, which the skip progress event already carries. -/
theorem c7_progress_sum_amended (fs : String → Option Nat) (lp : FileEntry → String)
    (thr tc : Nat) (files : List FileEntry) (hthr : 1 ≤ thr) :
    (runDownload fs lp thr tc files).progressChunkSum
      = ((runDownload fs lp thr tc files).totalBytes : Int) ∧
    (runDownload fs lp thr tc files).bytesReceived
      = ((runDownload fs lp thr tc files).totalBytes : Int) := by
  have h := planFiles_sum fs lp thr tc hthr files
  simp only [runDownload]
  constructor
  · by_cases h0 : 0 < (planFiles fs lp thr tc files).skippedBytes
    · rw [if_pos h0]
      linarith
    · rw [if_neg h0]
      have hz : (planFiles fs lp thr tc files).skippedBytes = 0 := by omega
      rw [hz] at h
      simpa using h
  · linarith

/-- Witness for C7 (amended): a single 1-byte file downloaded whole. -/
theorem c7_progress_sum_amended_witness :
    1 ≤ 1 ∧
    (runDownload (fun _ => none) (fun f => f.path) 1 1
        [⟨"a", "/srv/a", 1, 0, 0⟩]).progressChunkSum
      = ((runDownload (fun _ => none) (fun f => f.path) 1 1
          [⟨"a", "/srv/a", 1, 0, 0⟩]).totalBytes : Int) :=
  ⟨le_refl 1,
    (c7_progress_sum_amended (fun _ => none) (fun f => f.path) 1 1
      [⟨"a", "/srv/a", 1, 0, 0⟩] (le_refl 1)).1⟩

theorem planFiles_all_skip_aux (fs : String → Option Nat) (lp : FileEntry → String)
    (thr tc : Nat) (files : List FileEntry) :
    ∀ st : PlanState, (∀ f ∈ files, fs (lp f) = some f.size) →
      (files.foldl (planFileStep fs lp thr tc) st).jobs = st.jobs ∧
      (files.foldl (planFileStep fs lp thr tc) st).skippedBytes
        = st.skippedBytes + (files.map FileEntry.size).sum := by
  induction files with
  | nil =>
    intro st _
    exact ⟨rfl, by simp⟩
  | cons f rest ih =>
    intro st hall
    rw [List.foldl_cons]
    have hf : fs (lp f) = some f.size := hall f (List.mem_cons_self f rest)
    have hstep : planFileStep fs lp thr tc st f
        = { st with
              skippedBytes := st.skippedBytes + f.size
              skipEvents := st.skipEvents ++ [(f.path, f.size)] } := by
      unfold planFileStep
      rw [if_pos hf]
    rw [hstep]
    obtain ⟨h1, h2⟩ := ih _ (fun g hg => hall g (List.mem_cons_of_mem f hg))
    refine ⟨h1, ?_⟩
    rw [h2]
    simp only [List.map_cons, List.sum_cons]
    omega

/-- **C9.** If every enumerated file already exists locally with matching size
(so all files are skipped), planning creates no job, `downloadFiles` returns
before the dispatch loop ever acquires an agent (`jobs.length === 0`), and the
transfer still emits `complete` with `bytesReceived` equal to the sum of all
file sizes, i.e. `totalBytes`. -/
theorem c9_all_skipped (fs : String → Option Nat) (lp : FileEntry → String)
    (thr tc : Nat) (files : List FileEntry)
    (hall : ∀ f ∈ files, fs (lp f) = some f.size) :
    (runDownload fs lp thr tc files).jobs = [] ∧
    (runDownload fs lp thr tc files).dispatched = false ∧
    (runDownload fs lp thr tc files).bytesReceived
      = ((runDownload fs lp thr tc files).totalBytes : Int) ∧
    (runDownload fs lp thr tc files).completeEvent
      = some ((runDownload fs lp thr tc files).totalBytes : Int) := by
  obtain ⟨hj, hs⟩ := planFiles_all_skip_aux fs lp thr tc files ⟨[], 0, []⟩ hall
  have hj' : (planFiles fs lp thr tc files).jobs = [] := hj
  have hs' : (planFiles fs lp thr tc files).skippedBytes = (files.map FileEntry.size).sum := by
    rw [show planFiles fs lp thr tc files
        = files.foldl (planFileStep fs lp thr tc) ⟨[], 0, []⟩ from rfl, hs]
    simp
  simp [runDownload, hj', hs']

/-- Witness for C9: one 5-byte file already present locally. -/
theorem c9_all_skipped_witness :
    (∀ f ∈ [(⟨"a", "/srv/a", 5, 0, 0⟩ : FileEntry)],
      (fun s => if s = "a" then some 5 else none) ((fun g => g.path) f) = some f.size) ∧
    (runDownload (fun s => if s = "a" then some 5 else none) (fun g => g.path) 100 8
        [⟨"a", "/srv/a", 5, 0, 0⟩]).jobs = [] ∧
    (runDownload (fun s => if s = "a" then some 5 else none) (fun g => g.path) 100 8
        [⟨"a", "/srv/a", 5, 0, 0⟩]).dispatched = false :=
  ⟨by decide,
    (c9_all_skipped (fun s => if s = "a" then some 5 else none) (fun g => g.path) 100 8
      [⟨"a", "/srv/a", 5, 0, 0⟩] (by decide)).1,
    (c9_all_skipped (fun s => if s = "a" then some 5 else none) (fun g => g.path) 100 8
      [⟨"a", "/srv/a", 5, 0, 0⟩] (by decide)).2.1⟩

theorem planFileStep_skipEvents (fs : String → Option Nat) (lp : FileEntry → String)
    (thr tc : Nat) (st : PlanState) (f : FileEntry) :
    (planFileStep fs lp thr tc st f).skipEvents
      = if fs (lp f) = some f.size then st.skipEvents ++ [(f.path, f.size)]
        else st.skipEvents := by
  unfold planFileStep
  split_ifs <;> rfl

theorem planFileStep_skippedBytes (fs : String → Option Nat) (lp : FileEntry → String)
    (thr tc : Nat) (st : PlanState) (f : FileEntry) :
    (planFileStep fs lp thr tc st f).skippedBytes
      = if fs (lp f) = some f.size then st.skippedBytes + f.size
        else st.skippedBytes := by
  unfold planFileStep
  split_ifs <;> rfl

theorem planFiles_skipEvents_aux (fs : String → Option Nat) (lp : FileEntry → String)
    (thr tc : Nat) (files : List FileEntry) :
    ∀ st : PlanState,
      (files.foldl (planFileStep fs lp thr tc) st).skipEvents
        = st.skipEvents
          ++ (files.filter (fun f => decide (fs (lp f) = some f.size))).map
              (fun f => (f.path, f.size)) := by
  induction files with
  | nil =>
    intro st
    simp
  | cons f rest ih =>
    intro st
    rw [List.foldl_cons, ih]
    by_cases hf : fs (lp f) = some f.size
    · rw [planFileStep_skipEvents, if_pos hf]
      simp [List.filter_cons, hf]
    · rw [planFileStep_skipEvents, if_neg hf]
      simp [List.filter_cons, hf]

theorem planFiles_skippedBytes_aux (fs : String → Option Nat) (lp : FileEntry → String)
    (thr tc : Nat) (files : List FileEntry) :
    ∀ st : PlanState,
      (files.foldl (planFileStep fs lp thr tc) st).skippedBytes
        = st.skippedBytes
          + (((files.filter (fun f => decide (fs (lp f) = some f.size))).map
              FileEntry.size)).sum := by
  induction files with
  | nil =>
    intro st
    simp
  | cons f rest ih =>
    intro st
    rw [List.foldl_cons, ih]
    by_cases hf : fs (lp f) = some f.size
    · rw [planFileStep_skippedBytes, if_pos hf]
      simp [List.filter_cons, hf]
      omega
    · rw [planFileStep_skippedBytes, if_neg hf]
      simp [List.filter_cons, hf]

theorem Job.file_setTotal (lp : String) (k : Nat) (j : Job) :
    Job.file (setTotal lp k j) = Job.file j := by
  cases j with
  | whole f l r => rfl
  | range f l r rj =>
    simp only [setTotal]
    split_ifs <;> rfl

theorem planFiles_jobs_not_skipped_aux (fs : String → Option Nat) (lp : FileEntry → String)
    (thr tc : Nat) (files : List FileEntry) :
    ∀ st : PlanState,
      (∀ j ∈ st.jobs, ¬ fs (lp (Job.file j)) = some (Job.file j).size) →
      ∀ j ∈ (files.foldl (planFileStep fs lp thr tc) st).jobs,
        ¬ fs (lp (Job.file j)) = some (Job.file j).size := by
  induction files with
  | nil =>
    intro st h
    exact h
  | cons f rest ih =>
    intro st h
    rw [List.foldl_cons]
    refine ih _ ?_
    intro j hj
    unfold planFileStep at hj
    split_ifs at hj with h1 h2
    · exact h j hj
    · rcases List.mem_map.mp hj with ⟨j0, hj0, rfl⟩
      rw [Job.file_setTotal]
      rcases List.mem_append.mp hj0 with hmem | hmem
      · exact h j0 hmem
      · rcases List.mem_map.mp hmem with ⟨rj, _, rfl⟩
        exact h1
    · rcases List.mem_append.mp hj with hmem | hmem
      · exact h j hmem
      · rcases List.mem_singleton.mp hmem with rfl
        exact h1

/-- **C5.** For every enumerated file whose local target exists with matching
size, planning emits a `file:skip` event carrying the file and its size,
creates no job for that file, and the file's size is accounted toward
`bytesReceived` via `skippedBytes`: `skippedBytes` is exactly the sum of the
sizes of the files matching the skip condition (which this file does), and
the skip-time accounting sets `bytesReceived = skippedBytes` before any job
runs. -/
theorem c5_skip_existing (fs : String → Option Nat) (lp : FileEntry → String)
    (thr tc : Nat) (files : List FileEntry) (f : FileEntry)
    (hmem : f ∈ files) (hskip : fs (lp f) = some f.size) :
    ((f.path, f.size) ∈ (planFiles fs lp thr tc files).skipEvents) ∧
    (∀ j ∈ (planFiles fs lp thr tc files).jobs, Job.file j ≠ f) ∧
    ((planFiles fs lp thr tc files).skippedBytes
      = (((files.filter (fun g => decide (fs (lp g) = some g.size))).map
          FileEntry.size)).sum) ∧
    (f ∈ files.filter (fun g => decide (fs (lp g) = some g.size))) := by
  refine ⟨?_, ?_, ?_, ?_⟩
  · have h := planFiles_skipEvents_aux fs lp thr tc files ⟨[], 0, []⟩
    rw [show planFiles fs lp thr tc files
        = files.foldl (planFileStep fs lp thr tc) ⟨[], 0, []⟩ from rfl, h]
    simp only [List.nil_append]
    exact List.mem_map.mpr ⟨f, List.mem_filter.mpr ⟨hmem, by simp [hskip]⟩, rfl⟩
  · intro j hj
    have h := planFiles_jobs_not_skipped_aux fs lp thr tc files ⟨[], 0, []⟩
      (by intro j hj; simp at hj) j hj
    intro hfile
    rw [hfile] at h
    exact h hskip
  · have h := planFiles_skippedBytes_aux fs lp thr tc files ⟨[], 0, []⟩
    rw [show planFiles fs lp thr tc files
        = files.foldl (planFileStep fs lp thr tc) ⟨[], 0, []⟩ from rfl, h]
    simp
  · exact List.mem_filter.mpr ⟨hmem, by simp [hskip]⟩

/-- Witness for C5: the 5-byte file `a` exists locally with matching size. -/
theorem c5_skip_existing_witness :
    ((⟨"a", "/srv/a", 5, 0, 0⟩ : FileEntry)
        ∈ [(⟨"a", "/srv/a", 5, 0, 0⟩ : FileEntry), ⟨"b", "/srv/b", 3, 0, 0⟩]) ∧
    ((fun s => if s = "a" then some 5 else none)
        ((fun g => g.path) (⟨"a", "/srv/a", 5, 0, 0⟩ : FileEntry)) = some 5) ∧
    (("a", 5) ∈ (planFiles (fun s => if s = "a" then some 5 else none) (fun g => g.path)
        100 8 [⟨"a", "/srv/a", 5, 0, 0⟩, ⟨"b", "/srv/b", 3, 0, 0⟩]).skipEvents) :=
  ⟨by decide, by decide,
    (c5_skip_existing (fun s => if s = "a" then some 5 else none) (fun g => g.path)
      100 8 [⟨"a", "/srv/a", 5, 0, 0⟩, ⟨"b", "/srv/b", 3, 0, 0⟩]
      ⟨"a", "/srv/a", 5, 0, 0⟩ (by decide) (by decide)).1⟩

/-! ## Abort and the dispatch pass (`abort`, `processQueue`, part_004) -/

/-- The scheduler-visible state: the `aborted` flag and `activeTempFiles` of
the `SSHGet` instance, the pending queue, the pool, and the `active` map of
the dispatch loop. -/
structure SchedulerState where
  aborted : Bool
  activeTempFiles : List String
  pending : List Job
  agents : List AgentState
  active : List (Nat × Job)
deriving Repr, DecidableEq

/-- `abort()` (part_004 lines 491-497): set `aborted`, snapshot
`activeTempFiles` into the returned array, and clear the set — one synchronous
step. -/
def abortCall (st : SchedulerState) : List String × SchedulerState :=
  (st.activeTempFiles, { st with aborted := true, activeTempFiles := [] })

/-- `acquire()` (AgentPool.js lines 664-672): the first `ready && !busy &&
!unhealthy` agent is marked busy and returned (by id), else `none`. -/
def acquireAgent : List AgentState → Option (Nat × List AgentState)
  | [] => none
  | a :: rest =>
      if a.ready && !a.busy && !a.unhealthy then
        some (a.id, { a with busy := true } :: rest)
      else
        match acquireAgent rest with
        | some (id, rest') => some (id, a :: rest')
        | none => none

/-- The `while (pendingJobs.length > 0)` loop of `processQueue` (part_004
lines 332-348): pop a job per acquired agent, record it in `active`, emit
`file:start` (collected in the last component), until the queue is empty or
`acquire()` returns `none`. -/
def dispatchLoop (agents : List AgentState) (pending : List Job)
    (active : List (Nat × Job)) (started : List Job) :
    List AgentState × List Job × List (Nat × Job) × List Job :=
  match pending with
  | [] => (agents, [], active, started)
  | j :: rest =>
      match acquireAgent agents with
      | none => (agents, j :: rest, active, started)
      | some (id, agents') => dispatchLoop agents' rest (active ++ [(id, j)]) (started ++ [j])

/-- How one `processQueue` pass ended: resolved `{aborted:true}`, resolved
successfully, or still running. -/
inductive QueueResult where
  | resolvedAborted
  | resolvedDone
  | running
deriving Repr, DecidableEq

/-- One `processQueue` pass (part_004 lines 325-354): if `aborted`, resolve
`{aborted:true}` immediately — no agent is acquired, no `file:start` fires,
nothing changes; otherwise run the dispatch loop and resolve successfully when
both `pending` and `active` are empty. -/
def processQueue (st : SchedulerState) :
    SchedulerState × List Job × QueueResult :=
  if st.aborted then
    (st, [], QueueResult.resolvedAborted)
  else
    match dispatchLoop st.agents st.pending st.active [] with
    | (agents', pending', active', started) =>
        ({ st with agents := agents', pending := pending', active := active' },
         started,
         if pending'.isEmpty && active'.isEmpty then QueueResult.resolvedDone
         else QueueResult.running)

/-- The tail of `download()` (part_004 lines 170-185): when `downloadFiles`
resolved `{aborted:true}`, no `complete` event is emitted; otherwise exactly
one `complete{bytesReceived, files}` is. -/
def emittedComplete (r : QueueResult) (bytesReceived files : Nat) :
    Option (Nat × Nat) :=
  match r with
  | QueueResult.resolvedAborted => none
  | _ => some (bytesReceived, files)

/-- **C6.** `abort()` returns the current set of active temp-file paths and
clears the set in the same step (also raising `aborted`); a scheduler state
with `aborted` set resolves `{aborted: true}` at its next dispatch pass
without acquiring an agent, starting a job or changing any state; and an
aborted resolution emits no `complete` event. -/
theorem c6_abort (st : SchedulerState) (st' : SchedulerState)
    (habort : st'.aborted = true) :
    (abortCall st).1 = st.activeTempFiles ∧
    (abortCall st).2.activeTempFiles = [] ∧
    (abortCall st).2.aborted = true ∧
    (abortCall st).2.pending = st.pending ∧
    (processQueue st').1 = st' ∧
    (processQueue st').2.1 = [] ∧
    (processQueue st').2.2 = QueueResult.resolvedAborted ∧
    (∀ bytesReceived files, emittedComplete QueueResult.resolvedAborted bytesReceived files
      = none) ∧
    (processQueue (abortCall st).2).2.2 = QueueResult.resolvedAborted := by
  have hq : processQueue st' = (st', [], QueueResult.resolvedAborted) := by
    unfold processQueue
    rw [if_pos habort]
  have hq2 : processQueue (abortCall st).2
      = ((abortCall st).2, [], QueueResult.resolvedAborted) := by
    unfold processQueue
    rw [if_pos (show (abortCall st).2.aborted = true from rfl)]
  refine ⟨rfl, rfl, rfl, rfl, ?_, ?_, ?_, fun _ _ => rfl, ?_⟩
  · rw [hq]
  · rw [hq]
  · rw [hq]
  · rw [hq2]

/-- Witness for C6 at a concrete aborted state. -/
theorem c6_abort_witness :
    (⟨true, ["t.sshget.tmp"], [], [], []⟩ : SchedulerState).aborted = true ∧
    (abortCall ⟨false, ["t.sshget.tmp"], [], [], []⟩).1 = ["t.sshget.tmp"] ∧
    (processQueue ⟨true, ["t.sshget.tmp"], [], [], []⟩).2.2
      = QueueResult.resolvedAborted :=
  ⟨rfl,
    (c6_abort ⟨false, ["t.sshget.tmp"], [], [], []⟩
      ⟨true, ["t.sshget.tmp"], [], [], []⟩ rfl).1,
    (c6_abort ⟨false, ["t.sshget.tmp"], [], [], []⟩
      ⟨true, ["t.sshget.tmp"], [], [], []⟩ rfl).2.2.2.2.2.2.1⟩

/-! ## Temp-file tracking (`downloadFiles` preallocation, `executeJob`,
`abort`; part_004 lines 285-293, 356-421, 491-497) -/

/-- `localPath + ".sshget.tmp"`. -/
def tempPathOf (lp : String) : String := lp ++ ".sshget.tmp"

/-- JS `Set.add` on a duplicate-free list: idempotent insert. -/
def addStr (s : List String) (x : String) : List String :=
  if x ∈ s then s else s ++ [x]

/-- JS `Set.add` for chunk indices (`completedChunks` sets). -/
def addIdx (s : List Nat) (x : Nat) : List Nat :=
  if x ∈ s then s else s ++ [x]

/-- One iteration of the preallocation loop (part_004 lines 286-293): for a
range job whose `localPath` is not yet in `preallocFiles`, record it and
insert `localPath + ".sshget.tmp"` into `activeTempFiles`.  The accumulator
is `(preallocFiles, activeTempFiles)`. -/
def preallocStep (acc : List String × List String) (j : Job) :
    List String × List String :=
  match j with
  | Job.range _ lp _ _ =>
      if lp ∈ acc.1 then acc
      else (acc.1 ++ [lp], addStr acc.2 (tempPathOf lp))
  | _ => acc

/-- `activeTempFiles` right after the preallocation loop, starting from the
fresh transfer's empty set. -/
def preallocTemps (jobs : List Job) : List String :=
  (jobs.foldl preallocStep ([], [])).2

/-- The temp-file-relevant state during execution: `activeTempFiles` and
`completedChunks`. -/
structure ExecState where
  activeTempFiles : List String
  completedChunks : List (String × List Nat)
deriving Repr, DecidableEq

/-- `completedChunks.get(key) || new Set()`. -/
def lookupChunks : List (String × List Nat) → String → List Nat
  | [], _ => []
  | (k, v) :: rest, key => if k = key then v else lookupChunks rest key

/-- `completedChunks.set(key, chunks)`. -/
def setChunksMap : List (String × List Nat) → String → List Nat → List (String × List Nat)
  | [], key, v => [(key, v)]
  | (k, w) :: rest, key, v =>
      if k = key then (k, v) :: rest else (k, w) :: setChunksMap rest key v

/-- The events of `executeJob` that touch `activeTempFiles` or
`completedChunks`: a whole job starting execution, a whole job succeeding, a
range job succeeding (with its `chunkIndex` and `totalChunks`), and any job
failing (`onJobFailed` touches neither). -/
inductive ExecEvent where
  | startWhole (lp : String)
  | successWhole (lp : String)
  | successRange (lp : String) (chunkIndex totalChunks : Nat)
  | failJob
deriving Repr, DecidableEq

/-- Temp-file bookkeeping of `executeJob` (part_004 lines 356-421): a whole
job inserts its temp path when it starts and deletes it on success; a
successful range job adds its `chunkIndex` to `completedChunks[localPath]`
and deletes the temp path exactly when that set's size equals `totalChunks`
(the file finalizes); failures leave both untouched. -/
def execStep (st : ExecState) : ExecEvent → ExecState
  | ExecEvent.startWhole lp =>
      { st with activeTempFiles := addStr st.activeTempFiles (tempPathOf lp) }
  | ExecEvent.successWhole lp =>
      { st with activeTempFiles := st.activeTempFiles.erase (tempPathOf lp) }
  | ExecEvent.successRange lp idx total =>
      if (addIdx (lookupChunks st.completedChunks lp) idx).length = total then
        { activeTempFiles := st.activeTempFiles.erase (tempPathOf lp)
          completedChunks := setChunksMap st.completedChunks lp
            (addIdx (lookupChunks st.completedChunks lp) idx) }
      else
        { st with
            completedChunks := setChunksMap st.completedChunks lp
              (addIdx (lookupChunks st.completedChunks lp) idx) }
  | ExecEvent.failJob => st

/-- Run a sequence of execution events. -/
def execTrace (st : ExecState) (es : List ExecEvent) : ExecState :=
  es.foldl execStep st

/-- Whether, after the trace, a whole job for `lp` has started and not yet
succeeded (the last start/success event for `lp` is a start). -/
def wholeActiveIn (es : List ExecEvent) (lp : String) : Bool :=
  es.foldl
    (fun acc e =>
      match e with
      | ExecEvent.startWhole lp' => if lp' = lp then true else acc
      | ExecEvent.successWhole lp' => if lp' = lp then false else acc
      | _ => acc)
    false

/-- The distinct chunk indices delivered for `lp` during the trace. -/
def rangeIdxsIn (es : List ExecEvent) (lp : String) : List Nat :=
  es.foldl
    (fun acc e =>
      match e with
      | ExecEvent.successRange lp' idx _ => if lp' = lp then addIdx acc idx else acc
      | _ => acc)
    []

/-- Well-formed events with respect to the plan: whole events name
whole-planned local paths, range events name range-planned local paths and
carry that file's `totalChunks`. -/
def eventWF (rangeLps wholeLps : List String) (totals : String → Nat) :
    ExecEvent → Prop
  | ExecEvent.startWhole lp => lp ∈ wholeLps
  | ExecEvent.successWhole lp => lp ∈ wholeLps
  | ExecEvent.successRange lp _ total => lp ∈ rangeLps ∧ total = totals lp
  | ExecEvent.failJob => True

example :
    (execTrace ⟨[tempPathOf "/dl/A"], []⟩
      [ExecEvent.successRange "/dl/A" 0 2]).activeTempFiles
    = [tempPathOf "/dl/A"] := by decide

example :
    (execTrace ⟨[tempPathOf "/dl/A"], []⟩
      [ExecEvent.successRange "/dl/A" 0 2,
       ExecEvent.successRange "/dl/A" 1 2]).activeTempFiles = [] := by decide

theorem addStr_mem (s : List String) (x p : String) :
    p ∈ addStr s x ↔ p ∈ s ∨ p = x := by
  unfold addStr
  split_ifs with h
  · constructor
    · exact Or.inl
    · rintro (hp | rfl)
      · exact hp
      · exact h
  · simp [List.mem_append]

theorem addStr_nodup (s : List String) (x : String) (h : s.Nodup) :
    (addStr s x).Nodup := by
  unfold addStr
  split_ifs with hx
  · exact h
  · simp [List.nodup_append, h, hx]

theorem addIdx_length_ge (s : List Nat) (x : Nat) :
    s.length ≤ (addIdx s x).length := by
  unfold addIdx
  split_ifs <;> simp

theorem addIdx_length_le (s : List Nat) (x : Nat) :
    (addIdx s x).length ≤ s.length + 1 := by
  unfold addIdx
  split_ifs <;> simp

theorem lookup_setChunksMap (m : List (String × List Nat)) (k : String)
    (v : List Nat) (k' : String) :
    lookupChunks (setChunksMap m k v) k'
      = if k = k' then v else lookupChunks m k' := by
  induction m with
  | nil => simp [setChunksMap, lookupChunks]
  | cons kv rest ih =>
    rcases kv with ⟨k0, v0⟩
    by_cases h0 : k0 = k
    · subst h0
      by_cases h1 : k0 = k'
      · subst h1
        simp [setChunksMap, lookupChunks]
      · simp [setChunksMap, lookupChunks, h1]
    · by_cases h1 : k0 = k'
      · subst h1
        have hk : ¬ k = k0 := fun h => h0 h.symm
        simp [setChunksMap, lookupChunks, h0, hk]
      · simp [setChunksMap, lookupChunks, h0, h1, ih]

theorem tempPathOf_inj : Function.Injective tempPathOf := by
  intro a b h
  have hd : (a ++ ".sshget.tmp").data = (b ++ ".sshget.tmp").data :=
    congrArg String.data h
  rw [String.data_append, String.data_append] at hd
  have hab : a.data = b.data := List.append_cancel_right hd
  exact congrArg String.mk hab

theorem execTrace_snoc (st : ExecState) (es : List ExecEvent) (e : ExecEvent) :
    execTrace st (es ++ [e]) = execStep (execTrace st es) e := by
  unfold execTrace
  rw [List.foldl_append]
  rfl

theorem rangeIdxsIn_snoc_range (es : List ExecEvent) (lpE : String)
    (idx total : Nat) (lp : String) :
    rangeIdxsIn (es ++ [ExecEvent.successRange lpE idx total]) lp
      = if lpE = lp then addIdx (rangeIdxsIn es lp) idx else rangeIdxsIn es lp := by
  unfold rangeIdxsIn
  rw [List.foldl_append]
  rfl

theorem rangeIdxsIn_snoc_startWhole (es : List ExecEvent) (lpE lp : String) :
    rangeIdxsIn (es ++ [ExecEvent.startWhole lpE]) lp = rangeIdxsIn es lp := by
  unfold rangeIdxsIn
  rw [List.foldl_append]
  rfl

theorem rangeIdxsIn_snoc_successWhole (es : List ExecEvent) (lpE lp : String) :
    rangeIdxsIn (es ++ [ExecEvent.successWhole lpE]) lp = rangeIdxsIn es lp := by
  unfold rangeIdxsIn
  rw [List.foldl_append]
  rfl

theorem rangeIdxsIn_snoc_fail (es : List ExecEvent) (lp : String) :
    rangeIdxsIn (es ++ [ExecEvent.failJob]) lp = rangeIdxsIn es lp := by
  unfold rangeIdxsIn
  rw [List.foldl_append]
  rfl

theorem wholeActiveIn_snoc_start (es : List ExecEvent) (lpE lp : String) :
    wholeActiveIn (es ++ [ExecEvent.startWhole lpE]) lp
      = if lpE = lp then true else wholeActiveIn es lp := by
  unfold wholeActiveIn
  rw [List.foldl_append]
  rfl

theorem wholeActiveIn_snoc_success (es : List ExecEvent) (lpE lp : String) :
    wholeActiveIn (es ++ [ExecEvent.successWhole lpE]) lp
      = if lpE = lp then false else wholeActiveIn es lp := by
  unfold wholeActiveIn
  rw [List.foldl_append]
  rfl

theorem wholeActiveIn_snoc_range (es : List ExecEvent) (lpE : String)
    (idx total : Nat) (lp : String) :
    wholeActiveIn (es ++ [ExecEvent.successRange lpE idx total]) lp
      = wholeActiveIn es lp := by
  unfold wholeActiveIn
  rw [List.foldl_append]
  rfl

theorem wholeActiveIn_snoc_fail (es : List ExecEvent) (lp : String) :
    wholeActiveIn (es ++ [ExecEvent.failJob]) lp = wholeActiveIn es lp := by
  unfold wholeActiveIn
  rw [List.foldl_append]
  rfl

/-- Invariant of the temp-file tracking over any well-formed execution trace:
`completedChunks` records exactly the distinct chunk indices delivered so
far, `activeTempFiles` stays duplicate-free, and it contains exactly the temp
paths of chunked files not yet finalized plus those of whole jobs started and
not yet succeeded. -/
theorem execTrace_char (rangeLps wholeLps : List String) (totals : String → Nat)
    (hdisj : ∀ lp ∈ rangeLps, lp ∉ wholeLps)
    (hnodup : rangeLps.Nodup)
    (htot : ∀ lp ∈ rangeLps, 1 ≤ totals lp) :
    ∀ es : List ExecEvent, (∀ e ∈ es, eventWF rangeLps wholeLps totals e) →
      (∀ lp, lookupChunks
          (execTrace ⟨rangeLps.map tempPathOf, []⟩ es).completedChunks lp
        = rangeIdxsIn es lp) ∧
      (execTrace ⟨rangeLps.map tempPathOf, []⟩ es).activeTempFiles.Nodup ∧
      (∀ p, p ∈ (execTrace ⟨rangeLps.map tempPathOf, []⟩ es).activeTempFiles ↔
        (∃ lp ∈ rangeLps, p = tempPathOf lp
          ∧ (rangeIdxsIn es lp).length < totals lp) ∨
        (∃ lp ∈ wholeLps, p = tempPathOf lp ∧ wholeActiveIn es lp = true)) := by
  intro es
  induction es using List.reverseRecOn with
  | nil =>
    intro _
    refine ⟨fun lp => rfl, List.Nodup.map tempPathOf_inj hnodup, fun p => ?_⟩
    show p ∈ rangeLps.map tempPathOf ↔ _
    constructor
    · intro hp
      rcases List.mem_map.mp hp with ⟨lp, hlp, rfl⟩
      exact Or.inl ⟨lp, hlp, rfl, by
        show (rangeIdxsIn [] lp).length < totals lp
        have := htot lp hlp
        simp only [rangeIdxsIn, List.foldl_nil, List.length_nil]
        omega⟩
    · rintro (⟨lp, hlp, rfl, _⟩ | ⟨lp, hlp, rfl, hact⟩)
      · exact List.mem_map.mpr ⟨lp, hlp, rfl⟩
      · simp only [wholeActiveIn, List.foldl_nil] at hact
        exact absurd hact (by simp)
  | append_singleton es e ih =>
    intro hwf
    have hwfes : ∀ e' ∈ es, eventWF rangeLps wholeLps totals e' :=
      fun e' he' => hwf e' (List.mem_append.mpr (Or.inl he'))
    have hwfe : eventWF rangeLps wholeLps totals e :=
      hwf e (List.mem_append.mpr (Or.inr (List.mem_singleton.mpr rfl)))
    obtain ⟨ihc, ihn, ihm⟩ := ih hwfes
    rw [execTrace_snoc]
    cases e with
    | startWhole lp =>
      have hlpW : lp ∈ wholeLps := hwfe
      refine ⟨?_, ?_, ?_⟩
      · intro lp'
        rw [rangeIdxsIn_snoc_startWhole]
        exact ihc lp'
      · exact addStr_nodup _ _ ihn
      · intro p
        show p ∈ addStr _ (tempPathOf lp) ↔ _
        rw [addStr_mem]
        constructor
        · rintro (hp | rfl)
          · rcases (ihm p).mp hp with ⟨lp', h1, h2, h3⟩ | ⟨lp', h1, h2, h3⟩
            · exact Or.inl ⟨lp', h1, h2, by rwa [rangeIdxsIn_snoc_startWhole]⟩
            · refine Or.inr ⟨lp', h1, h2, ?_⟩
              rw [wholeActiveIn_snoc_start]
              by_cases hl : lp = lp'
              · simp [hl]
              · simp [hl, h3]
          · refine Or.inr ⟨lp, hlpW, rfl, ?_⟩
            rw [wholeActiveIn_snoc_start]
            simp
        · rintro (⟨lp', h1, h2, h3⟩ | ⟨lp', h1, h2, h3⟩)
          · refine Or.inl ((ihm p).mpr (Or.inl ⟨lp', h1, h2, ?_⟩))
            rwa [rangeIdxsIn_snoc_startWhole] at h3
          · by_cases hl : lp = lp'
            · subst hl
              exact Or.inr h2
            · rw [wholeActiveIn_snoc_start, if_neg hl] at h3
              exact Or.inl ((ihm p).mpr (Or.inr ⟨lp', h1, h2, h3⟩))
    | successWhole lp =>
      have hlpW : lp ∈ wholeLps := hwfe
      refine ⟨?_, ?_, ?_⟩
      · intro lp'
        rw [rangeIdxsIn_snoc_successWhole]
        exact ihc lp'
      · exact List.Nodup.erase _ ihn
      · intro p
        show p ∈ List.erase _ (tempPathOf lp) ↔ _
        rw [List.Nodup.mem_erase_iff ihn]
        constructor
        · rintro ⟨hne, hp⟩
          rcases (ihm p).mp hp with ⟨lp', h1, h2, h3⟩ | ⟨lp', h1, h2, h3⟩
          · exact Or.inl ⟨lp', h1, h2, by rwa [rangeIdxsIn_snoc_successWhole]⟩
          · refine Or.inr ⟨lp', h1, h2, ?_⟩
            rw [wholeActiveIn_snoc_success]
            have hl : ¬ lp = lp' := by
              intro hl
              exact hne (by rw [h2, hl])
            rw [if_neg hl]
            exact h3
        · rintro (⟨lp', h1, h2, h3⟩ | ⟨lp', h1, h2, h3⟩)
          · have hl : lp' ≠ lp := fun hl => hdisj lp' h1 (hl ▸ hlpW)
            refine ⟨by rw [h2]; exact fun hc => hl (tempPathOf_inj hc), ?_⟩
            refine (ihm p).mpr (Or.inl ⟨lp', h1, h2, ?_⟩)
            rwa [rangeIdxsIn_snoc_successWhole] at h3
          · rw [wholeActiveIn_snoc_success] at h3
            by_cases hl : lp = lp'
            · rw [if_pos hl] at h3
              exact absurd h3 (by simp)
            · rw [if_neg hl] at h3
              refine ⟨by rw [h2]; exact fun hc => hl (tempPathOf_inj hc).symm, ?_⟩
              exact (ihm p).mpr (Or.inr ⟨lp', h1, h2, h3⟩)
    | successRange lp idx total =>
      obtain ⟨hlpR, htotEq⟩ := hwfe
      have hLold : lookupChunks
          (execTrace ⟨rangeLps.map tempPathOf, []⟩ es).completedChunks lp
          = rangeIdxsIn es lp := ihc lp
      have hchunks : ∀ lp',
          lookupChunks (setChunksMap
            (execTrace ⟨rangeLps.map tempPathOf, []⟩ es).completedChunks lp
            (addIdx (lookupChunks
              (execTrace ⟨rangeLps.map tempPathOf, []⟩ es).completedChunks lp) idx)) lp'
          = rangeIdxsIn (es ++ [ExecEvent.successRange lp idx total]) lp' := by
        intro lp'
        rw [lookup_setChunksMap, rangeIdxsIn_snoc_range, hLold]
        by_cases hl : lp = lp'
        · subst hl
          simp
        · rw [if_neg hl, if_neg hl]
          exact ihc lp'
      show _ ∧ _ ∧ _
      by_cases hfin : (addIdx (lookupChunks
          (execTrace ⟨rangeLps.map tempPathOf, []⟩ es).completedChunks lp) idx).length
          = total
      · rw [execStep, if_pos hfin]
        refine ⟨hchunks, List.Nodup.erase _ ihn, ?_⟩
        intro p
        show p ∈ List.erase _ (tempPathOf lp) ↔ _
        rw [List.Nodup.mem_erase_iff ihn]
        have hlen : (rangeIdxsIn (es ++ [ExecEvent.successRange lp idx total]) lp).length
            = totals lp := by
          rw [rangeIdxsIn_snoc_range, if_pos rfl, ← hLold, ← htotEq]
          exact hfin
        constructor
        · rintro ⟨hne, hp⟩
          rcases (ihm p).mp hp with ⟨lp', h1, h2, h3⟩ | ⟨lp', h1, h2, h3⟩
          · have hl : ¬ lp = lp' := by
              intro hl
              exact hne (by rw [h2, hl])
            refine Or.inl ⟨lp', h1, h2, ?_⟩
            rwa [rangeIdxsIn_snoc_range, if_neg hl]
          · refine Or.inr ⟨lp', h1, h2, ?_⟩
            rwa [wholeActiveIn_snoc_range]
        · rintro (⟨lp', h1, h2, h3⟩ | ⟨lp', h1, h2, h3⟩)
          · have hl : ¬ lp = lp' := by
              intro hl
              subst hl
              rw [hlen] at h3
              omega
            rw [rangeIdxsIn_snoc_range, if_neg hl] at h3
            refine ⟨by rw [h2]; exact fun hc => hl (tempPathOf_inj hc).symm, ?_⟩
            exact (ihm p).mpr (Or.inl ⟨lp', h1, h2, h3⟩)
          · have hl : lp' ≠ lp := fun hl => hdisj lp hlpR (hl ▸ h1)
            rw [wholeActiveIn_snoc_range] at h3
            refine ⟨by rw [h2]; exact fun hc => hl (tempPathOf_inj hc), ?_⟩
            exact (ihm p).mpr (Or.inr ⟨lp', h1, h2, h3⟩)
      · rw [execStep, if_neg hfin]
        refine ⟨hchunks, ihn, ?_⟩
        intro p
        show p ∈ (execTrace ⟨rangeLps.map tempPathOf, []⟩ es).activeTempFiles ↔ _
        rw [ihm p]
        have hle := addIdx_length_le (rangeIdxsIn es lp) idx
        have hge := addIdx_length_ge (rangeIdxsIn es lp) idx
        have hfin' : (addIdx (rangeIdxsIn es lp) idx).length ≠ totals lp := by
          rw [← hLold, ← htotEq]
          exact hfin
        constructor
        · rintro (⟨lp', h1, h2, h3⟩ | ⟨lp', h1, h2, h3⟩)
          · refine Or.inl ⟨lp', h1, h2, ?_⟩
            rw [rangeIdxsIn_snoc_range]
            by_cases hl : lp = lp'
            · subst hl
              rw [if_pos rfl]
              omega
            · rw [if_neg hl]
              exact h3
          · refine Or.inr ⟨lp', h1, h2, ?_⟩
            rwa [wholeActiveIn_snoc_range]
        · rintro (⟨lp', h1, h2, h3⟩ | ⟨lp', h1, h2, h3⟩)
          · refine Or.inl ⟨lp', h1, h2, ?_⟩
            rw [rangeIdxsIn_snoc_range] at h3
            by_cases hl : lp = lp'
            · subst hl
              rw [if_pos rfl] at h3
              omega
            · rwa [if_neg hl] at h3
          · refine Or.inr ⟨lp', h1, h2, ?_⟩
            rwa [wholeActiveIn_snoc_range] at h3
    | failJob =>
      refine ⟨?_, ihn, ?_⟩
      · intro lp'
        rw [rangeIdxsIn_snoc_fail]
        exact ihc lp'
      · intro p
        show p ∈ (execTrace ⟨rangeLps.map tempPathOf, []⟩ es).activeTempFiles ↔ _
        rw [ihm p]
        constructor
        · rintro (⟨lp', h1, h2, h3⟩ | ⟨lp', h1, h2, h3⟩)
          · exact Or.inl ⟨lp', h1, h2, by rwa [rangeIdxsIn_snoc_fail]⟩
          · exact Or.inr ⟨lp', h1, h2, by rwa [wholeActiveIn_snoc_fail]⟩
        · rintro (⟨lp', h1, h2, h3⟩ | ⟨lp', h1, h2, h3⟩)
          · exact Or.inl ⟨lp', h1, h2, by rwa [rangeIdxsIn_snoc_fail] at h3⟩
          · exact Or.inr ⟨lp', h1, h2, by rwa [wholeActiveIn_snoc_fail] at h3⟩

theorem preallocFold_invariant (jobs : List Job) :
    ∀ seen temps : List String, temps = seen.map tempPathOf →
      (jobs.foldl preallocStep (seen, temps)).2
        = (jobs.foldl preallocStep (seen, temps)).1.map tempPathOf ∧
      (∀ lp, lp ∈ (jobs.foldl preallocStep (seen, temps)).1 ↔
        lp ∈ seen ∨ ∃ j ∈ jobs, Job.isRange j = true ∧ lp = Job.localPath j) := by
  induction jobs with
  | nil =>
    intro seen temps h
    refine ⟨h, fun lp => ?_⟩
    simp
  | cons j rest ih =>
    intro seen temps h
    rw [List.foldl_cons]
    cases j with
    | whole f l r =>
      rw [show preallocStep (seen, temps) (Job.whole f l r) = (seen, temps) from rfl]
      obtain ⟨h1, h2⟩ := ih seen temps h
      refine ⟨h1, fun lp => ?_⟩
      rw [h2 lp]
      constructor
      · rintro (hs | ⟨j, hj, hr, hl⟩)
        · exact Or.inl hs
        · exact Or.inr ⟨j, List.mem_cons_of_mem _ hj, hr, hl⟩
      · rintro (hs | ⟨j, hj, hr, hl⟩)
        · exact Or.inl hs
        · rcases List.mem_cons.mp hj with rfl | hj'
          · exact absurd hr (by simp [Job.isRange])
          · exact Or.inr ⟨j, hj', hr, hl⟩
    | range f l r rj =>
      by_cases hin : l ∈ seen
      · rw [show preallocStep (seen, temps) (Job.range f l r rj) = (seen, temps) from by
          simp [preallocStep, hin]]
        obtain ⟨h1, h2⟩ := ih seen temps h
        refine ⟨h1, fun lp => ?_⟩
        rw [h2 lp]
        constructor
        · rintro (hs | ⟨j, hj, hr, hl⟩)
          · exact Or.inl hs
          · exact Or.inr ⟨j, List.mem_cons_of_mem _ hj, hr, hl⟩
        · rintro (hs | ⟨j, hj, hr, hl⟩)
          · exact Or.inl hs
          · rcases List.mem_cons.mp hj with rfl | hj'
            · exact Or.inl (by
                have hll : lp = l := hl
                rw [hll]
                exact hin)
            · exact Or.inr ⟨j, hj', hr, hl⟩
      · have htmpnin : tempPathOf l ∉ temps := by
          rw [h]
          intro hmem
          rcases List.mem_map.mp hmem with ⟨s, hs, hts⟩
          exact hin (tempPathOf_inj hts ▸ hs)
        rw [show preallocStep (seen, temps) (Job.range f l r rj)
            = (seen ++ [l], temps ++ [tempPathOf l]) from by
          simp [preallocStep, hin, addStr, htmpnin]]
        have hmap : temps ++ [tempPathOf l] = (seen ++ [l]).map tempPathOf := by
          rw [List.map_append, h]
          rfl
        obtain ⟨h1, h2⟩ := ih (seen ++ [l]) (temps ++ [tempPathOf l]) hmap
        refine ⟨h1, fun lp => ?_⟩
        rw [h2 lp]
        constructor
        · rintro (hs | ⟨j, hj, hr, hl⟩)
          · rcases List.mem_append.mp hs with hs' | hs'
            · exact Or.inl hs'
            · have hll : lp = l := List.mem_singleton.mp hs'
              exact Or.inr ⟨Job.range f l r rj, List.mem_cons_self _ _, rfl, hll⟩
          · exact Or.inr ⟨j, List.mem_cons_of_mem _ hj, hr, hl⟩
        · rintro (hs | ⟨j, hj, hr, hl⟩)
          · exact Or.inl (List.mem_append.mpr (Or.inl hs))
          · rcases List.mem_cons.mp hj with rfl | hj'
            · exact Or.inl (List.mem_append.mpr (Or.inr (List.mem_singleton.mpr hl)))
            · exact Or.inr ⟨j, hj', hr, hl⟩

/-- After the preallocation loop, `activeTempFiles` contains exactly the temp
paths of the range-planned local paths — whole jobs contribute nothing. -/
theorem preallocTemps_mem (jobs : List Job) (p : String) :
    p ∈ preallocTemps jobs
      ↔ ∃ j ∈ jobs, Job.isRange j = true ∧ p = tempPathOf (Job.localPath j) := by
  obtain ⟨h1, h2⟩ := preallocFold_invariant jobs [] [] rfl
  unfold preallocTemps
  rw [h1]
  constructor
  · intro hp
    rcases List.mem_map.mp hp with ⟨lp, hlp, rfl⟩
    rcases (h2 lp).mp hlp with h | ⟨j, hj, hr, rfl⟩
    · exact absurd h (by simp)
    · exact ⟨j, hj, hr, rfl⟩
  · rintro ⟨j, hj, hr, rfl⟩
    exact List.mem_map.mpr ⟨Job.localPath j, (h2 _).mpr (Or.inr ⟨j, hj, hr, rfl⟩), rfl⟩

/-- **C10 counterexample.** A single chunked file `/dl/A` with one retained
chunk: its temp path is preallocated, the chunk completes and the file
finalizes, and then `abort()` is called.  The returned set is empty — it does
NOT contain the preallocated chunked file's temp path, refuting the claim
that the set returned by `abort()` contains every preallocated chunked
file's temp path. -/
theorem c10_temp_tracking_counterexample :
    "/dl/A.sshget.tmp" ∈ preallocTemps
      [Job.range ⟨"A", "/srv/A", 5, 0, 0⟩ "/dl/A" "/srv/A" ⟨0, 4, 0, 1⟩] ∧
    (execTrace
      ⟨preallocTemps [Job.range ⟨"A", "/srv/A", 5, 0, 0⟩ "/dl/A" "/srv/A" ⟨0, 4, 0, 1⟩], []⟩
      [ExecEvent.successRange "/dl/A" 0 1]).activeTempFiles = [] ∧
    (abortCall ⟨false,
      (execTrace
        ⟨preallocTemps [Job.range ⟨"A", "/srv/A", 5, 0, 0⟩ "/dl/A" "/srv/A" ⟨0, 4, 0, 1⟩], []⟩
        [ExecEvent.successRange "/dl/A" 0 1]).activeTempFiles, [], [], []⟩).1 = [] ∧
    "/dl/A.sshget.tmp" ∉ (abortCall ⟨false,
      (execTrace
        ⟨preallocTemps [Job.range ⟨"A", "/srv/A", 5, 0, 0⟩ "/dl/A" "/srv/A" ⟨0, 4, 0, 1⟩], []⟩
        [ExecEvent.successRange "/dl/A" 0 1]).activeTempFiles, [], [], []⟩).1 := by
  refine ⟨by decide, by decide, by decide, by decide⟩

/-- **C10 (amended).** Temp-path tracking is asymmetric between job kinds:
the preallocation pass inserts into `activeTempFiles` exactly the temp paths
of the chunked (range-planned) files — before any job executes, and never a
whole job's — while a whole job's temp path is inserted only when that job
starts executing and removed on its success, and a chunked file's temp path
is removed exactly when the file finalizes.  Consequently the set returned by
`abort()` (which also clears the tracked set) contains exactly: the temp
paths of chunked files not yet finalized, plus the temp paths of whole-file
jobs that have started (at least once, including failed attempts awaiting
retry) and not yet succeeded. -/
theorem c10_temp_tracking (jobs : List Job)
    (rangeLps wholeLps : List String) (totals : String → Nat)
    (hdisj : ∀ lp ∈ rangeLps, lp ∉ wholeLps)
    (hnodup : rangeLps.Nodup)
    (htot : ∀ lp ∈ rangeLps, 1 ≤ totals lp)
    (es : List ExecEvent) (hwf : ∀ e ∈ es, eventWF rangeLps wholeLps totals e)
    (st : SchedulerState)
    (hst : st.activeTempFiles
      = (execTrace ⟨rangeLps.map tempPathOf, []⟩ es).activeTempFiles) :
    (∀ p, p ∈ preallocTemps jobs
      ↔ ∃ j ∈ jobs, Job.isRange j = true ∧ p = tempPathOf (Job.localPath j)) ∧
    (∀ p, p ∈ (abortCall st).1 ↔
      (∃ lp ∈ rangeLps, p = tempPathOf lp
        ∧ (rangeIdxsIn es lp).length < totals lp) ∨
      (∃ lp ∈ wholeLps, p = tempPathOf lp ∧ wholeActiveIn es lp = true)) ∧
    (abortCall st).2.activeTempFiles = [] := by
  obtain ⟨-, -, hm⟩ := execTrace_char rangeLps wholeLps totals hdisj hnodup htot es hwf
  refine ⟨preallocTemps_mem jobs, fun p => ?_, rfl⟩
  rw [show (abortCall st).1 = st.activeTempFiles from rfl, hst]
  exact hm p

/-- Witness for C10: one chunked file `/dl/A` (2 chunks, none done) and one
whole file `/dl/B` whose job has started. -/
theorem c10_temp_tracking_witness :
    (∀ lp ∈ ["/dl/A"], lp ∉ ["/dl/B"]) ∧
    (abortCall ⟨false,
      (execTrace ⟨["/dl/A"].map tempPathOf, []⟩
        [ExecEvent.startWhole "/dl/B"]).activeTempFiles, [], [], []⟩).2.activeTempFiles
      = [] :=
  ⟨by decide,
    (c10_temp_tracking [] ["/dl/A"] ["/dl/B"] (fun _ => 2)
      (by decide) (by decide) (by decide)
      [ExecEvent.startWhole "/dl/B"]
      (by
        intro e he
        rcases List.mem_singleton.mp he with rfl
        exact List.mem_singleton.mpr rfl)
      ⟨false,
        (execTrace ⟨["/dl/A"].map tempPathOf, []⟩
          [ExecEvent.startWhole "/dl/B"]).activeTempFiles, [], [], []⟩
      rfl).2.2⟩

end SSHGet
